import Mathlib

/-!
# Verification of the Name Resolution & Lazy-Sync Search Core

A shallow embedding, in Lean 4, of the name-search query builder
(`backend/members/services.py`), the member search coordinator, the
member matcher (`backend/votes/member_matcher.py`), the bill lazy-sync
coordinator (`backend/bills/services.py`) and the Senate vote ingestion
path (`backend/votes/management/commands/sync_votes.py`) of the
gov-watchdog repository, together with proofs and refutations of the
specification's claims about them.

Text is modelled as `List Char`.  MongoDB `$regex` filters (PCRE, with
the `"i"` option, no `m`/`s`/`x` options and no UCP) are modelled by an
executable pattern scanner/parser/matcher defined below; query documents
are modelled by a small query AST with `$or` / `$and` / `$regex` /
equality nodes, evaluated against typed documents.  An invalid regex
pattern anywhere in a query makes the whole query evaluate to `none`
(the MongoDB server rejects the query, the driver raises).
-/

/-- Text, modelled as a list of characters. -/
abbrev Str := List Char

/-- Python `\s` / `str.split()` whitespace (ASCII common cases). -/
def isSpaceC (c : Char) : Bool :=
  c == ' ' || c == '\t' || c == '\n' || c == '\r' || c == '\x0b' || c == '\x0c'

/-- ASCII lower-casing of one character.  MongoDB's PCRE `"i"` option
folds case ASCII-wise (no UCP), so the embedding uses ASCII folding. -/
def lowerC (c : Char) : Char :=
  if 'A' ≤ c ∧ c ≤ 'Z' then Char.ofNat (c.toNat + 32) else c

/-- ASCII upper-casing of one character (for Python `str.upper()` on
state codes; state codes are ASCII). -/
def upperC (c : Char) : Char :=
  if 'a' ≤ c ∧ c ≤ 'z' then Char.ofNat (c.toNat - 32) else c

/-- Case-insensitive character equality (ASCII folding). -/
def ciEqC (a b : Char) : Bool := lowerC a == lowerC b

/-- PCRE `\w` word character (ASCII letters, digits, underscore; PCRE
without UCP is ASCII-only). -/
def isWordC (c : Char) : Bool :=
  ('a' ≤ c ∧ c ≤ 'z') || ('A' ≤ c ∧ c ≤ 'Z') || ('0' ≤ c ∧ c ≤ '9') || c == '_'

/-- Lower-case a string character-wise (Python `str.lower()`, ASCII). -/
def lowerS (s : Str) : Str := s.map lowerC

/-- Upper-case a string character-wise (Python `str.upper()`, ASCII). -/
def upperS (s : Str) : Str := s.map upperC

/-- Python `str.strip()`: drop whitespace from both ends. -/
def pyStrip (s : Str) : Str :=
  ((s.dropWhile isSpaceC).reverse.dropWhile isSpaceC).reverse

/-- Collapse every maximal run of whitespace into a single `' '`
(the effect of `re.sub(r'\s+', ' ', ·)`); `prevWs` records whether the
previous character was part of a whitespace run. -/
def collapseWsAux (prevWs : Bool) : Str → Str
  | [] => []
  | c :: cs =>
    if isSpaceC c then
      if prevWs then collapseWsAux true cs else ' ' :: collapseWsAux true cs
    else c :: collapseWsAux false cs

/-- `_normalize_search_term` from `members/services.py`:
`re.sub(r'\s+', ' ', search_term.strip())`. -/
def normalizeSearchTerm (s : Str) : Str := collapseWsAux false (pyStrip s)

/-- Python `str.split()` with no argument: the maximal runs of
non-whitespace characters.  `cur` is the (reversed) current token. -/
def splitWsAux (cur : Str) : Str → List Str
  | [] => if cur.isEmpty then [] else [cur.reverse]
  | c :: cs =>
    if isSpaceC c then
      if cur.isEmpty then splitWsAux [] cs else cur.reverse :: splitWsAux [] cs
    else splitWsAux (c :: cur) cs

/-- Python `str.split()` with no argument. -/
def splitWs (s : Str) : List Str := splitWsAux [] s

/-- Python `str.replace(char, '\\' + char)` for a one-character needle:
every occurrence of `c` becomes `'\\', c`. -/
def replaceCharEsc (c : Char) (s : Str) : Str :=
  s.flatMap (fun x => if x == c then ['\\', c] else [x])

/-- The character sequence of the raw Python string
`r'\.^$*+?{}[]()|\\'` iterated over by `_escape_regex_special_chars`
(note: the backslash occurs at position 0 and twice more at the end). -/
def specialCharsList : List Char :=
  ['\\', '.', '^', '$', '*', '+', '?', '\x7b', '\x7d', '[', ']', '(', ')', '|', '\\', '\\']

/-- `_escape_regex_special_chars` from `members/services.py`: for each
character of `specialCharsList` in order, replace every occurrence with
a backslash followed by that character. -/
def escapeRegexSpecialChars (s : Str) : Str :=
  specialCharsList.foldl (fun acc c => replaceCharEsc c acc) s

/-!
## The regex engine

MongoDB compiles `$regex` patterns with PCRE.  The engine below covers
the constructs reachable from the query builders (and errors, like PCRE,
on a dangling trailing backslash, an unmatched `)` or an unterminated
group or character class): literals, `\b`, `\c` escapes, `.`, `^`, `$`,
`(...)` groups, top-level and grouped `|` alternation, `[...]` character
classes with ranges, and the postfix quantifiers `*` `+` `?`.  A `{`
or `}` is treated as a literal: the query builders never produce a
syntactically valid `{m,n}` quantifier (every brace they emit is
separated from any digits by escaped backslashes).

### Phase 1: top-level splitting

`tsp` splits a pattern into its top-level alternatives: the segments
between `|` bars that occur at group depth 0, outside any character
class, not preceded by an escaping backslash.  It fails (`none`) when
the pattern ends inside an escape, inside a character class, inside an
unclosed group, or closes a group that was never opened — the PCRE
compile errors. -/

/-- Prepend a character to the first segment of a segment list. -/
def consSegL (c : Char) : List Str → List Str
  | [] => [[c]]
  | s :: ss => (c :: s) :: ss

/-- Top-level splitter.  `e`: a backslash escape is pending; `k`: inside
a character class; `d`: group depth. -/
def tsp (e k : Bool) (d : Nat) : Str → Option (List Str)
  | [] => if e || k || d != 0 then none else some [[]]
  | c :: cs =>
    if e then (tsp false k d cs).map (consSegL c)
    else if c == '\\' then (tsp true k d cs).map (consSegL c)
    else if k then
      if c == ']' then (tsp false false d cs).map (consSegL c)
      else (tsp false true d cs).map (consSegL c)
    else if c == '[' then (tsp false true d cs).map (consSegL c)
    else if c == '(' then (tsp false false (d + 1) cs).map (consSegL c)
    else if c == ')' then
      match d with
      | 0 => none
      | d' + 1 => (tsp false false d' cs).map (consSegL c)
    else if c == '|' then
      if d == 0 then (tsp false false 0 cs).map (fun segs => [] :: segs)
      else (tsp false false d cs).map (consSegL c)
    else (tsp false k d cs).map (consSegL c)

/-- Merge two segment lists at their junction: the last segment of `su`
continues into the first segment of `sv`. -/
def glueSegs (su sv : List Str) : List Str :=
  match su.getLast?, sv with
  | none, _ => sv
  | some _, [] => su
  | some lastU, s1 :: rest => su.dropLast ++ (lastU ++ s1) :: rest

/-- ASCII alphanumeric (used to reject unknown `\letter` escapes, which
the query builders never produce). -/
def isAlphanumC (c : Char) : Bool :=
  ('a' ≤ c ∧ c ≤ 'z') || ('A' ≤ c ∧ c ≤ 'Z') || ('0' ≤ c ∧ c ≤ '9')

/-- One item of a character class. -/
inductive ClsItem where
  | one (c : Char)
  | range (a b : Char)
deriving DecidableEq, Repr

/-- The regex AST.  A sequence is a `List Regex`; `alts` is a group
with its list of alternative sequences. -/
inductive Regex where
  | lit (c : Char)
  | anyc
  | wb
  | bol
  | eol
  | cls (neg : Bool) (items : List ClsItem)
  | alts (xs : List (List Regex))
  | star (r : Regex)
deriving Repr

/-- Escapes valid inside a character class: `\b` is backspace, `\\` and
other escaped punctuation are literal; `\letter`/`\digit` classes are
rejected (the builders never produce them). -/
def classEsc (c : Char) : Option Char :=
  if c == 'b' then some '\x08'
  else if isAlphanumC c then none
  else some c

/-- Parse character-class items up to the closing `]`: single
characters, `\c` escapes and `c1-c2` ranges (a `-` immediately before
`]` is a literal); `none` on an unterminated class or invalid escape.
`fuel` bounds the recursion; callers pass at least the input length
plus one, which is ample since every step consumes a character. -/
def parseClassItemsF : Nat → Str → Option (List ClsItem × Str)
  | 0, _ => none
  | _, [] => none
  | _ + 1, ']' :: rest => some ([], rest)
  | _ + 1, '\\' :: [] => none
  | _ + 1, '\\' :: c :: '-' :: ']' :: rest =>
    (classEsc c).bind (fun c1 => some ([ClsItem.one c1, ClsItem.one '-'], rest))
  | fuel + 1, '\\' :: c :: '-' :: '\\' :: c2 :: rest =>
    (classEsc c).bind (fun c1 =>
      (classEsc c2).bind (fun c2e =>
        (parseClassItemsF fuel rest).map (fun p => (ClsItem.range c1 c2e :: p.1, p.2))))
  | _ + 1, '\\' :: _ :: '-' :: [] => none
  | fuel + 1, '\\' :: c :: '-' :: c2 :: rest =>
    (classEsc c).bind (fun c1 =>
      (parseClassItemsF fuel rest).map (fun p => (ClsItem.range c1 c2 :: p.1, p.2)))
  | fuel + 1, '\\' :: c :: rest =>
    (classEsc c).bind (fun c1 =>
      (parseClassItemsF fuel rest).map (fun p => (ClsItem.one c1 :: p.1, p.2)))
  | _ + 1, c :: '-' :: ']' :: rest => some ([ClsItem.one c, ClsItem.one '-'], rest)
  | fuel + 1, c :: '-' :: '\\' :: c2 :: rest =>
    (classEsc c2).bind (fun c2e =>
      (parseClassItemsF fuel rest).map (fun p => (ClsItem.range c c2e :: p.1, p.2)))
  | _ + 1, _ :: '-' :: [] => none
  | fuel + 1, c :: '-' :: c2 :: rest =>
    (parseClassItemsF fuel rest).map (fun p => (ClsItem.range c c2 :: p.1, p.2))
  | fuel + 1, c :: rest =>
    (parseClassItemsF fuel rest).map (fun p => (ClsItem.one c :: p.1, p.2))

/-- Parse the start of a character class (after the opening `[`): an
optional `^` negation and a first-position `]` taken as a literal, then
the items. -/
def parseClsStart (s : Str) : Option (Bool × List ClsItem × Str) :=
  match s with
  | '^' :: ']' :: rest =>
    (parseClassItemsF (rest.length + 1) rest).map
      (fun p => (true, ClsItem.one ']' :: p.1, p.2))
  | '^' :: rest =>
    (parseClassItemsF (rest.length + 1) rest).map (fun p => (true, p.1, p.2))
  | ']' :: rest =>
    (parseClassItemsF (rest.length + 1) rest).map
      (fun p => (false, ClsItem.one ']' :: p.1, p.2))
  | rest => (parseClassItemsF (rest.length + 1) rest).map (fun p => (false, p.1, p.2))

/-- Extract the contents of a group up to its matching `)` (the opening
`(` has already been consumed); escape/class/depth aware. -/
def extractGroup (e k : Bool) (d : Nat) : Str → Option (Str × Str)
  | [] => none
  | c :: cs =>
    if e then (extractGroup false k d cs).map (fun p => (c :: p.1, p.2))
    else if c == '\\' then (extractGroup true k d cs).map (fun p => (c :: p.1, p.2))
    else if k then
      if c == ']' then (extractGroup false false d cs).map (fun p => (c :: p.1, p.2))
      else (extractGroup false true d cs).map (fun p => (c :: p.1, p.2))
    else if c == '[' then (extractGroup false true d cs).map (fun p => (c :: p.1, p.2))
    else if c == '(' then (extractGroup false false (d + 1) cs).map (fun p => (c :: p.1, p.2))
    else if c == ')' then
      match d with
      | 0 => some ([], cs)
      | d' + 1 => (extractGroup false false d' cs).map (fun p => (c :: p.1, p.2))
    else (extractGroup false k d cs).map (fun p => (c :: p.1, p.2))

/-- After an atom, recognize one postfix quantifier: returns the
atoms the quantified atom expands to (`r+` is `r r*`, `r?` is a group
with an empty alternative) and the remaining input. -/
def postfixSplit (s : Str) : (Regex → List Regex) × Str :=
  match s with
  | '*' :: rs => (fun r => [Regex.star r], rs)
  | '+' :: rs => (fun r => [r, Regex.star r], rs)
  | '?' :: rs => (fun r => [Regex.alts [[r], []]], rs)
  | rs => (fun r => [r], rs)

/-- Parse one top-level-bar-free segment into its sequence of regex
atoms.  Consumes one unit of fuel per step; the top-level caller passes
twice the pattern length plus two, which is ample.  Errors (`none`)
mirror PCRE compile errors: dangling `\`, unknown `\letter` escape,
quantifier with nothing to repeat, unterminated class or group.  A
naked `)` or `|` cannot occur in a segment produced by `tsp`. -/
def parseSegF : Nat → Str → Option (List Regex)
  | _, [] => some []
  | 0, _ :: _ => none
  | fuel + 1, c :: cs =>
    if c == '\\' then
      match cs with
      | [] => none
      | c2 :: rest =>
        if c2 == 'b' then (parseSegF fuel rest).map (fun t => Regex.wb :: t)
        else if isAlphanumC c2 then none
        else
          let p := postfixSplit rest
          (parseSegF fuel p.2).map (fun t => p.1 (Regex.lit c2) ++ t)
    else if c == '^' then (parseSegF fuel cs).map (fun t => Regex.bol :: t)
    else if c == '$' then (parseSegF fuel cs).map (fun t => Regex.eol :: t)
    else if c == '.' then
      let p := postfixSplit cs
      (parseSegF fuel p.2).map (fun t => p.1 Regex.anyc ++ t)
    else if c == '[' then
      match parseClsStart cs with
      | none => none
      | some (neg, items, rest) =>
        let p := postfixSplit rest
        (parseSegF fuel p.2).map (fun t => p.1 (Regex.cls neg items) ++ t)
    else if c == '(' then
      match extractGroup false false 0 cs with
      | none => none
      | some (g, rest) =>
        match (tsp false false 0 g).bind (fun segs => segs.mapM (parseSegF fuel)) with
        | none => none
        | some alts =>
          let p := postfixSplit rest
          (parseSegF fuel p.2).map (fun t => p.1 (Regex.alts alts) ++ t)
    else if c == '*' || c == '+' || c == '?' then none
    else if c == ')' || c == '|' then none
    else
      let p := postfixSplit cs
      (parseSegF fuel p.2).map (fun t => p.1 (Regex.lit c) ++ t)

/-- Parse a whole pattern into its list of top-level alternative
sequences; `none` is a PCRE compile error (MongoDB rejects the query). -/
def parsePattern (p : Str) : Option (List (List Regex)) :=
  (tsp false false 0 p).bind (fun segs => segs.mapM (parseSegF (2 * p.length + 2)))

/-- PCRE `\b`: the wordness of the previous character differs from the
wordness of the next character (`none`/end of input is non-word). -/
def wordBoundaryB (prev : Option Char) (s : Str) : Bool :=
  (match prev with
   | none => false
   | some c => isWordC c)
  != (match s with
      | [] => false
      | x :: _ => isWordC x)

/-- PCRE `$` (no multiline option): end of input, or just before a
final newline. -/
def eolHereB (s : Str) : Bool := s == [] || s == ['\n']

/-- Does a character match one class item, case-insensitively? -/
def clsItemMatch (it : ClsItem) (x : Char) : Bool :=
  match it with
  | ClsItem.one c => ciEqC c x
  | ClsItem.range a b =>
    (a ≤ x ∧ x ≤ b) || (a ≤ lowerC x ∧ lowerC x ≤ b) || (a ≤ upperC x ∧ upperC x ≤ b)

/-- Does a character match a (possibly negated) class? -/
def clsMatches (neg : Bool) (items : List ClsItem) (x : Char) : Bool :=
  let m := items.any (fun it => clsItemMatch it x)
  if neg then !m else m

mutual

/-- All ways one regex atom can match a prefix of `s`: the list of
`(previous character, remaining input)` states after the match.  `prev`
is the character just before `s` (for `\b` and `^`).  One unit of fuel
is consumed per recursive step, so the recursion is structural and
computations reduce in the kernel; callers pass
`(|text| + 2) * (4|pattern| + 8)`, which bounds the call depth because
every `star` iteration must consume input. -/
def msplitOne : Nat → Regex → Option Char → Str → List (Option Char × Str)
  | _, Regex.lit _, _, [] => []
  | _, Regex.lit c, _, x :: xs => if ciEqC c x then [(some x, xs)] else []
  | _, Regex.anyc, _, [] => []
  | _, Regex.anyc, _, x :: xs => if x == '\n' then [] else [(some x, xs)]
  | _, Regex.wb, prev, s => if wordBoundaryB prev s then [(prev, s)] else []
  | _, Regex.bol, prev, s => if prev.isNone then [(prev, s)] else []
  | _, Regex.eol, prev, s => if eolHereB s then [(prev, s)] else []
  | _, Regex.cls _ _, _, [] => []
  | _, Regex.cls neg items, _, x :: xs =>
    if clsMatches neg items x then [(some x, xs)] else []
  | 0, Regex.alts _, _, _ => []
  | fuel + 1, Regex.alts xs, prev, s =>
    xs.flatMap (fun sq => msplitSeq fuel sq prev s)
  | 0, Regex.star _, prev, s => [(prev, s)]
  | fuel + 1, Regex.star r, prev, s =>
    (prev, s) ::
      (msplitOne fuel r prev s).flatMap (fun pr =>
        if pr.2.length < s.length then msplitOne fuel (Regex.star r) pr.1 pr.2
        else [])

/-- All ways a sequence of atoms can match a prefix of `s`. -/
def msplitSeq : Nat → List Regex → Option Char → Str → List (Option Char × Str)
  | _, [], prev, s => [(prev, s)]
  | 0, _ :: _, _, _ => []
  | fuel + 1, r :: rest, prev, s =>
    (msplitOne fuel r prev s).flatMap (fun pr => msplitSeq fuel rest pr.1 pr.2)
end

/-- Does any of the alternative sequences match starting exactly at the
state `(prev, s)`? -/
def matchHereB (fuel : Nat) (alts : List (List Regex)) (prev : Option Char) (s : Str) :
    Bool :=
  alts.any (fun sq => !(msplitSeq fuel sq prev s).isEmpty)

/-- Unanchored PCRE search: does the pattern match starting at some
position of the input? -/
def searchFrom (fuel : Nat) (alts : List (List Regex)) (prev : Option Char) (s : Str) :
    Bool :=
  matchHereB fuel alts prev s ||
    match s with
    | [] => false
    | x :: xs => searchFrom fuel alts (some x) xs

/-- Ample matcher fuel for a pattern of length `patLen` against `text`:
the match call depth is below the parsed structure size (under
`4·patLen + 8`) times the number of input-consuming `star` iterations
(under `|text| + 2`). -/
def fuelFor (patLen : Nat) (text : Str) : Nat :=
  (text.length + 2) * (4 * patLen + 8)

/-- MongoDB `{"$regex": pat, "$options": "i"}` applied to a string
value: `none` when the pattern does not compile (the query errors). -/
def regexSearchI (pat text : Str) : Option Bool :=
  (parsePattern pat).map (fun alts => searchFrom (fuelFor pat.length text) alts none text)

/-!
## Query documents and member documents

A MongoDB query dict is modelled by `MQuery`; a dict with several
top-level keys is a conjunction.  A member document carries the fields
the services read. -/

/-- The member-document fields the queries touch. -/
inductive MField where
  | first_name
  | last_name
  | name
  | state
  | party
  | chamber
deriving DecidableEq, Repr

/-- A stored member document (`members` collection).  `bioguide_id`,
`name`, `party`, `state`, `chamber` are required by the `Member` model;
`district` and `image_url` are optional. -/
structure MemberDoc where
  bioguide_id : Str
  name : Str
  first_name : Str
  last_name : Str
  party : Str
  state : Str
  district : Option Nat
  chamber : Str
  image_url : Option Str
deriving DecidableEq, Repr

/-- Read a queried field from a member document. -/
def getField (d : MemberDoc) : MField → Str
  | MField.first_name => d.first_name
  | MField.last_name => d.last_name
  | MField.name => d.name
  | MField.state => d.state
  | MField.party => d.party
  | MField.chamber => d.chamber

/-- A MongoDB query over member documents: `{}`,
`{f: {"$regex": pat, "$options": "i"}}`, `{f: v}`, and binary `$or` /
`$and` nodes.  A JSON `{"$or": [q1, ..., qn]}` list is embedded
right-nested through `morL` below (semantically identical: the match
set is the union, and one uncompilable regex anywhere fails the whole
query); likewise `$and` and multi-key filter documents through
`mandL`. -/
inductive MQuery where
  | empty
  | regexI (f : MField) (pat : Str)
  | eqS (f : MField) (v : Str)
  | orB (a b : MQuery)
  | andB (a b : MQuery)
deriving Repr

/-- Embed a `$or` list. -/
def morL : List MQuery → MQuery
  | [] => MQuery.empty
  | [q] => q
  | q :: qs => MQuery.orB q (morL qs)

/-- Embed a `$and` list (or a multi-key filter document). -/
def mandL : List MQuery → MQuery
  | [] => MQuery.empty
  | [q] => q
  | q :: qs => MQuery.andB q (mandL qs)

/-- Evaluate a query against one document; `none` when some regex in
the query does not compile (the server rejects the whole query, both
branches are always checked). -/
def evalQ : MQuery → MemberDoc → Option Bool
  | MQuery.empty, _ => some true
  | MQuery.regexI f pat, d => regexSearchI pat (getField d f)
  | MQuery.eqS f v, d => some (getField d f == v)
  | MQuery.orB a b, d =>
    match evalQ a d, evalQ b d with
    | some x, some y => some (x || y)
    | _, _ => none
  | MQuery.andB a b, d =>
    match evalQ a d, evalQ b d with
    | some x, some y => some (x && y)
    | _, _ => none

/-!
## The name query builders (`members/services.py`) -/

/-- The word-boundary prefix pattern `f"\\b{word}"`. -/
def bPat (word : Str) : Str := '\\' :: 'b' :: word

/-- `_build_single_word_query`: the word must occur at a word boundary
in `first_name`, `last_name` or `name`. -/
def buildSingleWordQuery (word : Str) : MQuery :=
  morL [
    MQuery.regexI MField.first_name (bPat word),
    MQuery.regexI MField.last_name (bPat word),
    MQuery.regexI MField.name (bPat word)]

/-- `_build_two_word_query`: "First Last", "Last First", or both words
in either order in the full name. -/
def buildTwoWordQuery (firstWord secondWord : Str) : MQuery :=
  morL [
    mandL [
      MQuery.regexI MField.first_name (bPat firstWord),
      MQuery.regexI MField.last_name (bPat secondWord)],
    mandL [
      MQuery.regexI MField.first_name (bPat secondWord),
      MQuery.regexI MField.last_name (bPat firstWord)],
    MQuery.regexI MField.name
      (bPat firstWord ++ ('.' :: '*' :: bPat secondWord) ++
        ('|' :: bPat secondWord) ++ ('.' :: '*' :: bPat firstWord))]

/-- Python `".*".join(...)` over word-boundary patterns. -/
def joinDotStar : List Str → Str
  | [] => []
  | [w] => w
  | w :: ws => w ++ ('.' :: '*' :: joinDotStar ws)

/-- `_build_multi_word_query` for three or more words. -/
def buildMultiWordQuery (words : List Str) : MQuery :=
  let fullPattern := joinDotStar (words.map bPat)
  let firstPattern := bPat (words.getD 0 [])
  let lastPattern := bPat (words.getD (words.length - 1) [])
  let base := [
    MQuery.regexI MField.name fullPattern,
    mandL [
      MQuery.regexI MField.first_name firstPattern,
      MQuery.regexI MField.last_name lastPattern],
    mandL [
      MQuery.regexI MField.first_name lastPattern,
      MQuery.regexI MField.last_name firstPattern]]
  let extra :=
    if words.length == 3 then
      [mandL [
        MQuery.regexI MField.first_name
          (bPat (words.getD 0 []) ++ ('.' :: '*' :: bPat (words.getD 1 []))),
        MQuery.regexI MField.last_name lastPattern],
       mandL [
        MQuery.regexI MField.first_name firstPattern,
        MQuery.regexI MField.last_name
          (bPat (words.getD 1 []) ++ ('.' :: '*' :: bPat (words.getD 2 [])))]]
    else []
  morL (base ++ extra)

/-- `_build_name_search_query`: normalize, split, escape each part,
route on word count (empty input gives the match-everything query). -/
def buildNameSearchQuery (searchTerm : Str) : MQuery :=
  let normalized := normalizeSearchTerm searchTerm
  if normalized.isEmpty then MQuery.empty
  else
    let parts := splitWs normalized
    let escapedParts := parts.map escapeRegexSpecialChars
    match escapedParts with
    | [w] => buildSingleWordQuery w
    | [w1, w2] => buildTwoWordQuery w1 w2
    | ws => buildMultiWordQuery ws

/-!
## Member search coordinator (`MemberService.search_members`) -/

/-- `MemberSearchParams` (`members/models.py`): the Pydantic model
validates `page ≥ 1` and `1 ≤ page_size ≤ 100` at the boundary. -/
structure MemberSearchParams where
  q : Option Str
  state : Option Str
  party : Option Str
  chamber : Option Str
  page : Nat
  page_size : Nat
deriving Repr

/-- Projection stored in a result page (`MemberSummary`). -/
structure MemberSummary where
  bioguide_id : Str
  name : Str
  party : Str
  state : Str
  district : Option Nat
  chamber : Str
  image_url : Option Str
deriving DecidableEq, Repr

/-- `PaginatedResponse` envelope. -/
structure PaginatedResponse where
  results : List MemberSummary
  total : Nat
  page : Nat
  page_size : Nat
  total_pages : Nat
deriving DecidableEq, Repr

/-- Summary projection of a member document. -/
def toSummary (d : MemberDoc) : MemberSummary :=
  { bioguide_id := d.bioguide_id
    name := d.name
    party := d.party
    state := d.state
    district := d.district
    chamber := d.chamber
    image_url := d.image_url }

/-- Insert into a sorted list (kernel-computable sorting). -/
def insertLe {α : Type} (le : α → α → Bool) (x : α) : List α → List α
  | [] => [x]
  | y :: ys => if le x y then x :: y :: ys else y :: insertLe le x ys

/-- Insertion sort (models the store's sorted cursor output). -/
def insertionSort {α : Type} (le : α → α → Bool) : List α → List α
  | [] => []
  | x :: xs => insertLe le x (insertionSort le xs)

/-- Byte-order string comparison (BSON string sort order; ASCII
documents sort identically codepoint-wise). -/
def strLe : Str → Str → Bool
  | [], _ => true
  | _ :: _, [] => false
  | a :: as, b :: bs => if a == b then strLe as bs else decide (a < b)

/-- Sort key `[("last_name", 1), ("first_name", 1)]`. -/
def memberLe (a b : MemberDoc) : Bool :=
  if a.last_name == b.last_name then strLe a.first_name b.first_name
  else strLe a.last_name b.last_name

/-- Does every regex in the query compile?  (MongoDB compiles all of
them during planning; one bad pattern fails the whole query.) -/
def queryValid : MQuery → Bool
  | MQuery.empty => true
  | MQuery.regexI _ pat => (parsePattern pat).isSome
  | MQuery.eqS _ _ => true
  | MQuery.orB a b => queryValid a && queryValid b
  | MQuery.andB a b => queryValid a && queryValid b

/-- The query document `search_members` builds from its parameters:
the structured filters (state upper-cased, party upper-cased, chamber
lower-cased), combined with the name query when a non-blank `q` is
given. -/
def memberSearchQuery (params : MemberSearchParams) : MQuery :=
  let filters : List MQuery :=
    (match params.state with
     | none => []
     | some s => [MQuery.eqS MField.state (upperS s)]) ++
    (match params.party with
     | none => []
     | some p => [MQuery.eqS MField.party (upperS p)]) ++
    (match params.chamber with
     | none => []
     | some c => [MQuery.eqS MField.chamber (lowerS c)])
  let base := mandL filters
  match params.q with
  | none => base
  | some qs =>
    if qs.isEmpty then base
    else
      let searchTerm := pyStrip qs
      if searchTerm.isEmpty then base
      else
        let nameQuery := buildNameSearchQuery searchTerm
        if filters.isEmpty then nameQuery
        else mandL [base, nameQuery]

/-- `MemberService.search_members`: count, paginate
(`total_pages = (total + page_size - 1) // page_size`), sort by
(last name, first name), slice, project.  `none` models the driver
exception raised when the query does not compile. -/
def searchMembers (store : List MemberDoc) (params : MemberSearchParams) :
    Option PaginatedResponse :=
  let query := memberSearchQuery params
  if queryValid query then
    let matching := store.filter (fun d => evalQ query d == some true)
    let total := matching.length
    let skip := (params.page - 1) * params.page_size
    let totalPages := (total + params.page_size - 1) / params.page_size
    let sorted := insertionSort memberLe matching
    some
      { results := ((sorted.drop skip).take params.page_size).map toSummary
        total := total
        page := params.page
        page_size := params.page_size
        total_pages := totalPages }
  else none

/-!
## The member matcher (`votes/member_matcher.py`) -/

/-- The matcher's memo cache: newest entries in front (`dict` set and
lookup semantics). -/
abbrev MCache := List (Str × Str)

/-- Cache lookup. -/
def cacheLookup (c : MCache) (k : Str) : Option Str :=
  (c.find? (fun p => p.1 == k)).map (fun p => p.2)

/-- Cache insert (later entries shadow older ones). -/
def cacheInsert (c : MCache) (k v : Str) : MCache := (k, v) :: c

/-- The cache key
`f"{last_name}_{first_name}_{state}_{chamber}".lower()`. -/
def matcherCacheKey (firstName lastName state chamber : Str) : Str :=
  lowerS (lastName ++ ('_' :: firstName) ++ ('_' :: state) ++ ('_' :: chamber))

/-- `MemberMatcher.find_bioguide_by_name_state`.  The store argument is
`Except`-valued: `Except.error` models a store failure, which the
method's `try`/`except` turns into `None` without touching the cache.
An uncompilable pattern also raises server-side and is caught the same
way.  Returns the result and the updated cache. -/
def findBioguideByNameState (cache : MCache) (storeE : Except Unit (List MemberDoc))
    (firstName lastName state chamber : Str) : Option Str × MCache :=
  let cacheKey := matcherCacheKey firstName lastName state chamber
  match cacheLookup cache cacheKey with
  | some v => (some v, cache)
  | none =>
    match storeE with
    | Except.error _ => (none, cache)
    | Except.ok members =>
      match parsePattern ('^' :: firstName ++ ['$']), parsePattern ('^' :: lastName ++ ['$']) with
      | some a1, some a2 =>
        match members.find? (fun d =>
            searchFrom (fuelFor (firstName.length + 2) d.first_name) a1 none d.first_name &&
            searchFrom (fuelFor (lastName.length + 2) d.last_name) a2 none d.last_name &&
            d.state == upperS state && d.chamber == lowerS chamber) with
        | some m => (some m.bioguide_id, cacheInsert cache cacheKey m.bioguide_id)
        | none =>
          match parsePattern ('^' :: lastName) with
          | some a3 =>
            match members.find? (fun d =>
                searchFrom (fuelFor (lastName.length + 1) d.last_name) a3 none d.last_name &&
                d.state == upperS state && d.chamber == lowerS chamber) with
            | some m => (some m.bioguide_id, cacheInsert cache cacheKey m.bioguide_id)
            | none => (none, cache)
          | none => (none, cache)
      | _, _ => (none, cache)

/-!
## Senate vote ingestion (`votes/management/commands/sync_votes.py`) -/

/-- One member record parsed from the Senate roll-call XML: free-text
name and state, no stable identifier. -/
structure XmlMember where
  first_name : Str
  last_name : Str
  state : Str
  vote_cast : Str
  party : Str
deriving DecidableEq, Repr

/-- Parsed Senate vote XML (`SenateVoteXMLParser.fetch_and_parse`). -/
structure XmlVoteData where
  members : List XmlMember
  vote_date : Str
  vote_question : Str
  vote_result : Str
  yea : Nat
  nay : Nat
  present : Nat
  absent : Nat
deriving Repr

/-- A matched member entry as built by `_fetch_detailed_vote`. -/
structure MatchedMember where
  bioguideId : Str
  vote : Str
  party : Str
  state : Str
deriving DecidableEq, Repr

/-- The member-matching loop of the Senate branch of
`_fetch_detailed_vote`: one fresh `MemberMatcher` per vote, cache
threaded through; unmatched records are dropped (with a logged
warning). -/
def matchSenateMembersAux (storeE : Except Unit (List MemberDoc)) (cache : MCache) :
    List XmlMember → List MatchedMember
  | [] => []
  | xm :: rest =>
    let r := findBioguideByNameState cache storeE xm.first_name xm.last_name xm.state
      ('s' :: 'e' :: 'n' :: 'a' :: 't' :: 'e' :: [])
    match r.1 with
    | some bid =>
      { bioguideId := bid, vote := xm.vote_cast, party := xm.party, state := xm.state } ::
        matchSenateMembersAux storeE r.2 rest
    | none => matchSenateMembersAux storeE r.2 rest

/-- The matched-member list of a Senate vote (fresh matcher, empty
cache). -/
def matchSenateMembers (storeE : Except Unit (List MemberDoc)) (xs : List XmlMember) :
    List MatchedMember :=
  matchSenateMembersAux storeE [] xs

/-- Set a key in an association list (Python dict assignment). -/
def assocSet (l : List (Str × Str)) (k v : Str) : List (Str × Str) :=
  if l.any (fun p => p.1 == k) then
    l.map (fun p => if p.1 == k then (k, v) else p)
  else l ++ [(k, v)]

/-- The `member_votes` mapping built by `_transform_vote`: one entry
per matched member with a truthy `bioguideId` and a truthy `vote`. -/
def buildMemberVotes (ms : List MatchedMember) : List (Str × Str) :=
  ms.foldl
    (fun acc m =>
      if !m.bioguideId.isEmpty && !m.vote.isEmpty then assocSet acc m.bioguideId m.vote
      else acc)
    []

/-- The member-votes mapping of the vote document the Senate sync path
stores for a given parsed XML vote and member store. -/
def senateVoteMemberVotes (storeE : Except Unit (List MemberDoc)) (xml : XmlVoteData) :
    List (Str × Str) :=
  buildMemberVotes (matchSenateMembers storeE xml.members)

/-!
## Bill lazy-sync coordinator (`bills/services.py`)

Upstream responses are typed records; the upstream client is a record
of `Except`-valued functions (`Except.error` models the client raising
after its retry policy is exhausted).  HTML stripping is done by an
external library (BeautifulSoup) and is passed in as an opaque function
of the client record.  Time is a `Nat` (seconds) parameter, constant
within one call. -/

/-- Render an optional number the way a Python f-string renders it
(`None` prints as `"None"`). -/
def natOptStr : Option Nat → Str
  | some n => (toString n).data
  | none => 'N' :: 'o' :: 'n' :: 'e' :: []

/-- One summary record from the `/summaries` endpoint. -/
structure SummaryItem where
  versionCode : Option Str
  actionDesc : Option Str
  actionDate : Option Str
  text : Str
  updateDate : Option Str
deriving DecidableEq, Repr

/-- The `/subjects` endpoint payload: optional policy area and the
legislative subject names. -/
structure SubjectsData where
  policyArea : Option Str
  legislativeSubjects : List Str
deriving DecidableEq, Repr

/-- Upstream bill detail payload (the fields `transform_bill` reads). -/
structure BillData where
  amendmentNumber : Option Nat
  number : Option Nat
  btype : Option Str
  congress : Option Nat
  title : Str
  shortTitle : Option Str
  sponsors : List Str
  introducedDate : Option Str
  latestActionText : Option Str
  latestActionDate : Option Str
deriving DecidableEq, Repr

/-- One item of the upstream recent-bills list. -/
structure BillListItem where
  btype : Str
  number : Option Nat
  congress : Option Nat
deriving DecidableEq, Repr

/-- A stored summary sub-document. -/
structure SummaryRec where
  version_code : Option Str
  action_desc : Option Str
  action_date : Option Str
  text_html : Str
  text_plain : Str
  updated_at : Option Str
deriving DecidableEq, Repr

/-- A stored bill document (`bills` collection). -/
structure BillDoc where
  bill_id : Str
  congress : Option Nat
  btype : Str
  number : Option Nat
  title : Str
  short_title : Option Str
  sponsor_id : Option Str
  introduced_date : Option Str
  latest_action : Option Str
  latest_action_date : Option Str
  legislative_subjects : List Str
  summaries : List SummaryRec
  policy_area : Option Str
  updated_at : Option Nat
deriving DecidableEq, Repr

/-- The upstream client (`CongressClient`), as a record of its calls;
`stripHtmlU` stands for the external `strip_html`. -/
structure CongressClientM where
  searchBillsU : Nat → Except Unit (List BillListItem)
  getBillU : Option Nat → Str → Option Nat → Except Unit BillData
  getSummariesU : Option Nat → Str → Option Nat → Except Unit (List SummaryItem)
  getSubjectsU : Option Nat → Str → Option Nat → Except Unit SubjectsData
  stripHtmlU : Str → Str

/-- `CongressClient.transform_bill`: `None` for an amendment, for a
missing number or for a missing/empty type; otherwise the canonical
document, with subjects/summaries folded in when their payloads are
present (absent payloads leave the defaults: no policy area, empty
lists). -/
def transformBill (stripHtml : Str → Str) (data : BillData)
    (summariesData : Option (List SummaryItem)) (subjectsData : Option SubjectsData) :
    Option BillDoc :=
  if data.amendmentNumber.isSome || data.number.isNone then none
  else
    let billType := data.btype.getD []
    if billType.isEmpty then none
    else
      let billTypeLower := lowerS billType
      some
        { bill_id := billTypeLower ++ natOptStr data.number ++ ('-' :: natOptStr data.congress)
          congress := data.congress
          btype := billTypeLower
          number := data.number
          title := data.title
          short_title := data.shortTitle
          sponsor_id := data.sponsors.head?
          introduced_date := data.introducedDate
          latest_action := data.latestActionText
          latest_action_date := data.latestActionDate
          legislative_subjects :=
            match subjectsData with
            | none => []
            | some sd => sd.legislativeSubjects.filter (fun n => !n.isEmpty)
          policy_area :=
            match subjectsData with
            | none => none
            | some sd => sd.policyArea
          summaries :=
            match summariesData with
            | none => []
            | some items =>
              (items.filter (fun s => !s.text.isEmpty)).map (fun s =>
                { version_code := s.versionCode
                  action_desc := s.actionDesc
                  action_date := s.actionDate
                  text_html := s.text
                  text_plain := stripHtml s.text
                  updated_at := s.updateDate })
          updated_at := none }

/-- `BillService.fetch_bill_complete`: three concurrent sub-fetches
with `return_exceptions=True`; a failed primary fetch aborts the record
(`none`); failed summaries/subjects fetches are logged and recorded as
absent (`none` payloads to `transform_bill`). -/
def fetchBillComplete (client : CongressClientM) (congress : Option Nat) (billType : Str)
    (billNumber : Option Nat) (now : Nat) : Option BillDoc :=
  match client.getBillU congress billType billNumber with
  | Except.error _ => none
  | Except.ok billData =>
    let summariesOpt := (client.getSummariesU congress billType billNumber).toOption
    let subjectsOpt := (client.getSubjectsU congress billType billNumber).toOption
    match transformBill client.stripHtmlU billData summariesOpt subjectsOpt with
    | none => none
    | some bill => some { bill with updated_at := some now }

/-- `update_one({"bill_id": fid}, {"$set": doc}, upsert=True)`: replace
the first document whose `bill_id` field equals the filter id, else
insert. -/
def upsertBill : List BillDoc → Str → BillDoc → List BillDoc
  | [], _, doc => [doc]
  | d :: ds, fid, doc =>
    if d.bill_id == fid then doc :: ds else d :: upsertBill ds fid doc

/-- Process-wide sync state: the `bills` collection and the
`_synced_congresses` set. -/
structure SyncState where
  store : List BillDoc
  synced : List Nat
deriving DecidableEq, Repr

/-- One iteration of the `sync_recent_bills` loop over the upstream
list.  The accumulator is (synced count, store, bill ids for which a
full-detail fetch was issued — instrumentation only, never read).
Items with a falsy type or number are skipped; an existing document
updated less than an hour ago is skipped without fetching; otherwise
the full record is fetched and, on success, upserted. -/
def syncStep (client : CongressClientM) (now : Nat)
    (st : Nat × List BillDoc × List Str) (item : BillListItem) :
    Nat × List BillDoc × List Str :=
  let billType := lowerS item.btype
  let truthyNum :=
    match item.number with
    | none => false
    | some n => n != 0
  if billType.isEmpty || !truthyNum then st
  else
    let billId := billType ++ natOptStr item.number ++ ('-' :: natOptStr item.congress)
    let skipFresh :=
      match (st.2.1.find? (fun d => d.bill_id == billId)).bind (fun d => d.updated_at) with
      | some t => decide (now - t < 3600)
      | none => false
    if skipFresh then st
    else
      match fetchBillComplete client item.congress billType item.number now with
      | some completeBill =>
        (st.1 + 1, upsertBill st.2.1 billId completeBill, st.2.2 ++ [billId])
      | none => (st.1, st.2.1, st.2.2 ++ [billId])

/-- `BillService.sync_recent_bills`: no-op if the congress is already
marked; otherwise fetch the recent-bills list (an upstream exception is
caught, returns 0 and — note — does *not* mark the scope), process each
item, then mark the congress synced.  Returns (synced count, new state,
fetched bill ids). -/
def syncRecentBills (client : CongressClientM) (st : SyncState) (congress : Nat)
    (now : Nat) : Nat × SyncState × List Str :=
  if st.synced.contains congress then (0, st, [])
  else
    match client.searchBillsU congress with
    | Except.error _ => (0, st, [])
    | Except.ok items =>
      let r := items.foldl (syncStep client now) (0, st.store, [])
      (r.1, { store := r.2.1, synced := congress :: st.synced }, r.2.2)

/-- Parameters of `BillService.search_bills` (defaults: `page = 1`,
`page_size = 20`). -/
structure BillsSearchParams where
  query : Option Str
  party : Option Str
  subject : Option Str
  congress : Option Nat
  page : Nat
  page_size : Nat
deriving Repr

/-- The bills response envelope. -/
structure BillsResp where
  results : List BillDoc
  total : Nat
  page : Nat
  page_size : Nat
  total_pages : Nat
deriving DecidableEq, Repr

/-- The filter `search_bills` builds, evaluated on one document.
`textMatch` is the MongoDB `$text` index oracle (an external store
capability).  The party filter matches `sponsor_id` against the
bioguide ids of members of that party.  A user-supplied `subject` is
used as an (unescaped) case-insensitive regex over the
`legislative_subjects` array — `none` when it does not compile.
Falsy parameters (empty strings, congress 0) are not applied, as in
Python. -/
def billQueryEval (textMatch : Str → BillDoc → Bool) (memberStore : List MemberDoc)
    (params : BillsSearchParams) (doc : BillDoc) : Option Bool :=
  let conj : List (Option Bool) :=
    (match params.query with
     | some q => if q.isEmpty then [] else [some (textMatch q doc)]
     | none => []) ++
    (match params.subject with
     | some subj =>
       if subj.isEmpty then []
       else
         [(parsePattern subj).map (fun alts =>
            doc.legislative_subjects.any (fun s =>
              searchFrom (fuelFor subj.length s) alts none s))]
     | none => []) ++
    (match params.congress with
     | some c => if c == 0 then [] else [some (doc.congress == some c)]
     | none => []) ++
    (match params.party with
     | some p =>
       if p.isEmpty then []
       else
         let partyIds :=
           (memberStore.filter (fun m => m.party == upperS p)).map (fun m => m.bioguide_id)
         [some
           (match doc.sponsor_id with
            | some sid => partyIds.contains sid
            | none => false)]
     | none => [])
  (conj.mapM id).map (fun bs => bs.all id)

/-- Result-page ordering without a text query: `introduced_date`
descending.  (With a text query the code orders by the text score,
a store capability; the embedding keeps store order in that case.) -/
def introDescLe (a b : BillDoc) : Bool :=
  strLe (b.introduced_date.getD []) (a.introduced_date.getD [])

/-- The congress a bill search would sync: the (truthy) `congress`
filter, defaulting to 119. -/
def billsTargetCongress (params : BillsSearchParams) : Nat :=
  match params.congress with
  | some c => if c == 0 then 119 else c
  | none => 119

/-- `BillService.search_bills`: count; if the count is below the page
size and the target congress (the `congress` filter, defaulting to 119)
is not yet marked synced, run one sync and re-count; slice the results.
Returns the envelope, the final state, and the number of
`sync_recent_bills` invocations (instrumentation).  `none` models the
driver exception on an uncompilable `subject` regex. -/
def searchBillsSvc (client : CongressClientM) (textMatch : Str → BillDoc → Bool)
    (memberStore : List MemberDoc) (params : BillsSearchParams) (st : SyncState)
    (now : Nat) : Option (BillsResp × SyncState × Nat) :=
  let subjValid :=
    match params.subject with
    | some subj => subj.isEmpty || (parsePattern subj).isSome
    | none => true
  if subjValid then
    let matchesD := fun (store : List BillDoc) =>
      store.filter (fun d => billQueryEval textMatch memberStore params d == some true)
    let total := (matchesD st.store).length
    let skip := (params.page - 1) * params.page_size
    let totalPages := max 1 ((total + params.page_size - 1) / params.page_size)
    let targetCongress := billsTargetCongress params
    let afterSync :=
      if total < params.page_size && !(st.synced.contains targetCongress) then
        let r := syncRecentBills client st targetCongress now
        (r.2.1, 1)
      else (st, 0)
    let st' := afterSync.1
    let total' :=
      if afterSync.2 == 1 then (matchesD st'.store).length else total
    let totalPages' :=
      if afterSync.2 == 1 then max 1 ((total' + params.page_size - 1) / params.page_size)
      else totalPages
    let ordered :=
      match params.query with
      | some q =>
        if q.isEmpty then insertionSort introDescLe (matchesD st'.store)
        else matchesD st'.store
      | none => insertionSort introDescLe (matchesD st'.store)
    some
      ({ results := (ordered.drop skip).take params.page_size
         total := total'
         page := params.page
         page_size := params.page_size
         total_pages := totalPages' },
       st', afterSync.2)
  else none

/-!
## Specification-side predicates

These definitions follow the specification's words (not the source);
they exist to be compared with the behaviour of the embedded code. -/

/-- Case-insensitive (ASCII) string equality, character-wise. -/
def ciEqList : Str → Str → Bool
  | [], [] => true
  | c :: cs, x :: xs => ciEqC c x && ciEqList cs xs
  | _, _ => false

/-- `w` is a case-insensitive prefix of `t`. -/
def ciPrefList : Str → Str → Bool
  | [], _ => true
  | _ :: _, [] => false
  | c :: cs, x :: xs => ciEqC c x && ciPrefList cs xs

/-- Modelled from the spec (claim C7's wording): `w` is a
case-insensitive literal prefix of some whitespace-delimited word of
`t`. -/
def wsWordPrefMatch (w t : Str) : Bool :=
  (splitWs t).any (fun word => ciPrefList w word)

/-- The maximal word-character runs of a string; `inRun` records
whether the previous character was a word character (so the leading
partial run is skipped). -/
def wordRunsCtx : Bool → Str → List Str
  | _, [] => []
  | true, x :: xs =>
    if isWordC x then wordRunsCtx true xs else wordRunsCtx false xs
  | false, x :: xs =>
    if isWordC x then (x :: xs.takeWhile isWordC) :: wordRunsCtx true xs
    else wordRunsCtx false xs

/-- The maximal word-character runs of a string. -/
def wordRuns (t : Str) : List Str := wordRunsCtx false t

/-- `w` is a case-insensitive prefix of some maximal word-character run
of `t` (the regex-`\b`-anchored reading of "prefix of a word"). -/
def wordRunPrefMatch (w t : Str) : Bool :=
  (wordRuns t).any (fun run => ciPrefList w run)

/-- The regex metacharacters `_escape_regex_special_chars` is meant to
neutralize. -/
def isRegexSpecialC (c : Char) : Bool :=
  c == '\\' || c == '.' || c == '^' || c == '$' || c == '*' || c == '+' || c == '?' ||
  c == '\x7b' || c == '\x7d' || c == '[' || c == ']' || c == '(' || c == ')' || c == '|'

/-- A string free of regex metacharacters. -/
def plainS (s : Str) : Bool := s.all (fun c => !isRegexSpecialC c)

/-- A string free of whitespace. -/
def noWsS (s : Str) : Bool := s.all (fun c => !isSpaceC c)

/-- A string of word characters only. -/
def allWordS (s : Str) : Bool := s.all isWordC

/-- A string free of newlines. -/
def noNlS (s : Str) : Bool := s.all (fun c => !(c == '\n'))

/-- Characters that are inert for the top-level splitter `tsp` (they
fall through to the default branch outside classes and escapes). -/
def tspPlainC (c : Char) : Bool :=
  !(c == '\\' || c == '[' || c == '(' || c == ')' || c == '|')

/-- Wordness of a previous-character state (`none`, the start of the
subject, counts as non-word). -/
def prevWordB : Option Char → Bool
  | none => false
  | some c => isWordC c

/-- Modelled from the spec (claim C3's wording): an exact
case-insensitive first-and-last-name match with the requested state
(upper-cased) and chamber (lower-cased). -/
def specExactMatch (firstName lastName state chamber : Str) (d : MemberDoc) : Bool :=
  ciEqList firstName d.first_name && ciEqList lastName d.last_name &&
    d.state == upperS state && d.chamber == lowerS chamber

/-- Modelled from the spec (claim C3's wording): a case-insensitive
last-name-prefix match with the requested state and chamber. -/
def specPrefMatch (lastName state chamber : Str) (d : MemberDoc) : Bool :=
  ciPrefList lastName d.last_name && d.state == upperS state && d.chamber == lowerS chamber

/-- Modelled from the spec (claim C3's wording): look for an exact
case-insensitive name match first, then fall back to a last-name
prefix match; cache the bioguide id on success. -/
def specFindBioguide (cache : MCache) (members : List MemberDoc)
    (firstName lastName state chamber : Str) : Option Str × MCache :=
  let cacheKey := matcherCacheKey firstName lastName state chamber
  match members.find? (specExactMatch firstName lastName state chamber) with
  | some m => (some m.bioguide_id, cacheInsert cache cacheKey m.bioguide_id)
  | none =>
    match members.find? (specPrefMatch lastName state chamber) with
    | some m => (some m.bioguide_id, cacheInsert cache cacheKey m.bioguide_id)
    | none => (none, cache)

/-!
## Concrete instances used by counterexamples and witnesses -/

/-- A member whose name is literally `"Smith (Jr.)"`. -/
def smithJrDoc : MemberDoc :=
  { bioguide_id := "S001".data
    name := "Smith (Jr.)".data
    first_name := "Smith".data
    last_name := "(Jr.)".data
    party := "R".data
    state := "TX".data
    district := some 1
    chamber := "house".data
    image_url := none }

/-- A member with a hyphenated first name. -/
def maryKateDoc : MemberDoc :=
  { bioguide_id := "K001".data
    name := "Mary-Kate Olsen".data
    first_name := "Mary-Kate".data
    last_name := "Olsen".data
    party := "D".data
    state := "CA".data
    district := some 2
    chamber := "house".data
    image_url := none }

/-- A member named Michael. -/
def michaelDoc : MemberDoc :=
  { bioguide_id := "M001".data
    name := "Michael Bennett".data
    first_name := "Michael".data
    last_name := "Bennett".data
    party := "D".data
    state := "CO".data
    district := none
    chamber := "senate".data
    image_url := none }

/-- A member named Dominic. -/
def dominicDoc : MemberDoc :=
  { bioguide_id := "D001".data
    name := "Dominic Pileggi".data
    first_name := "Dominic".data
    last_name := "Pileggi".data
    party := "R".data
    state := "PA".data
    district := some 3
    chamber := "house".data
    image_url := none }

/-- John Smith, a California senator. -/
def johnSmithDoc : MemberDoc :=
  { bioguide_id := "S002".data
    name := "John Smith".data
    first_name := "John".data
    last_name := "Smith".data
    party := "D".data
    state := "CA".data
    district := none
    chamber := "senate".data
    image_url := none }

/-- Default member-search parameters (no filters, first page of 20). -/
def c4Params : MemberSearchParams :=
  { q := none, state := none, party := none, chamber := none, page := 1, page_size := 20 }

/-- A bills-search parameter set: congress 119, first page of 20, no
other filters. -/
def billsParams119 : BillsSearchParams :=
  { query := none, party := none, subject := none, congress := some 119
    page := 1, page_size := 20 }

/-- An upstream client whose every call raises (models total upstream
failure after retries). -/
def failingClient : CongressClientM :=
  { searchBillsU := fun _ => Except.error ()
    getBillU := fun _ _ _ => Except.error ()
    getSummariesU := fun _ _ _ => Except.error ()
    getSubjectsU := fun _ _ _ => Except.error ()
    stripHtmlU := fun s => s }

/-- A sample upstream bill-list item (hr 1, congress 119). -/
def hr1Item : BillListItem :=
  { btype := "HR".data, number := some 1, congress := some 119 }

/-- A sample upstream bill-detail payload for hr 1. -/
def hr1Data : BillData :=
  { amendmentNumber := none
    number := some 1
    btype := some ("HR".data)
    congress := some 119
    title := "A bill".data
    shortTitle := none
    sponsors := ["S002".data]
    introducedDate := some ("2025-01-03".data)
    latestActionText := none
    latestActionDate := none }

/-- A client whose list and primary fetches succeed but whose
summaries and subjects fetches fail. -/
def partialClient : CongressClientM :=
  { searchBillsU := fun _ => Except.ok [hr1Item]
    getBillU := fun _ _ _ => Except.ok hr1Data
    getSummariesU := fun _ _ _ => Except.error ()
    getSubjectsU := fun _ _ _ => Except.error ()
    stripHtmlU := fun s => s }

/-- A client whose recent-bills list fetch succeeds (one item) but
whose per-record fetches all fail. -/
def partialListClient : CongressClientM :=
  { searchBillsU := fun _ => Except.ok [hr1Item]
    getBillU := fun _ _ _ => Except.error ()
    getSummariesU := fun _ _ _ => Except.error ()
    getSubjectsU := fun _ _ _ => Except.error ()
    stripHtmlU := fun s => s }

/-- The empty sync state. -/
def emptySyncState : SyncState := { store := [], synced := [] }

/-- A parsed Senate XML vote with one member record (John Smith, CA). -/
def xmlVoteSample : XmlVoteData :=
  { members := [{ first_name := "John".data, last_name := "Smith".data
                  state := "CA".data, vote_cast := "Yea".data, party := "D".data }]
    vote_date := "2025-02-01".data
    vote_question := "On Passage".data
    vote_result := "Passed".data
    yea := 51, nay := 49, present := 0, absent := 0 }

/-- The response of a member search over `[johnSmithDoc]` with the
default parameters (used by witness theorems). -/
def c4WitnessResp : PaginatedResponse :=
  { results := [toSummary johnSmithDoc], total := 1, page := 1, page_size := 20
    total_pages := 1 }


/-- `transform_bill` applied to `hr1Data` with absent summaries and
subjects payloads (used by witness theorems). -/
def hr1Transformed : BillDoc :=
  { bill_id := "hr1-119".data
    congress := some 119
    btype := "hr".data
    number := some 1
    title := "A bill".data
    short_title := none
    sponsor_id := some ("S002".data)
    introduced_date := some ("2025-01-03".data)
    latest_action := none
    latest_action_date := none
    legislative_subjects := []
    summaries := []
    policy_area := none
    updated_at := none }


/-- The envelope of a first bill search against an empty store with
`partialListClient` (used by the C2 witness). -/
def c2Resp1 : BillsResp :=
  { results := [], total := 0, page := 1, page_size := 20, total_pages := 1 }

/-- The sync state after that first search: nothing stored (the one
record's fetch failed) but congress 119 marked synced. -/
def c2St1 : SyncState := { store := [], synced := [119] }


/-- A stored hr1 document stamped at time 50 (fresh at time 100). -/
def freshBillDoc : BillDoc := { hr1Transformed with updated_at := some 50 }

/-- A sync state holding only the fresh hr1 document, nothing marked
synced. -/
def freshStore : SyncState := { store := [freshBillDoc], synced := [] }


/-!
# Theorems -/

/-- C1: the Name Query Builder never raises (the query it builds is
well-formed, all its patterns compile), but it does NOT treat regex
metacharacters as literals: `_escape_regex_special_chars` double-escapes
(its special-character string starts and ends with backslashes, so the
backslashes inserted by earlier replacements are doubled twice), turning
`"Smith (Jr.)"` into `"Smith \\\\(Jr\\\\.\\\\)"` (four backslashes before
each metacharacter) instead of the single escaping its own docstring
promises — and the resulting predicate fails to match a member whose
name is literally `"Smith (Jr.)"`. -/
theorem c1_escape_double_escapes_and_misses_literal :
    escapeRegexSpecialChars ("Smith (Jr.)".data) = ("Smith \\\\\\\\(Jr\\\\\\\\.\\\\\\\\)".data) ∧
    queryValid (buildNameSearchQuery ("Smith (Jr.)".data)) = true ∧
    evalQ (buildNameSearchQuery ("Smith (Jr.)".data)) smithJrDoc = some false := by
  refine ⟨by decide, by decide, by decide⟩

/-- C4 counterexample: a member search over an empty store with the
default page size returns `total = 0` and `total_pages = 0`, not the
claimed minimum of 1 page. -/
theorem c4_counterexample_zero_pages :
    (searchMembers [] c4Params).map (fun r => (r.total, r.total_pages)) = some (0, 0) ∧
    (0 : Nat) ≠ max 1 ((0 + 20 - 1) / 20) := by
  exact ⟨by decide, by decide⟩

/-- C4 amended: for every member search with page size between 1 and
100, `total_pages` is the exact ceiling of `total / page_size` with NO
minimum-1 clamp: `total ≤ total_pages * page_size`,
`total_pages * page_size < total + page_size`, and a zero total gives
zero pages.  (The minimum-1 clamp exists only in the bills search.) -/
theorem c4_total_pages_is_unclamped_ceiling
    (store : List MemberDoc) (params : MemberSearchParams) (resp : PaginatedResponse)
    (hps1 : 1 ≤ params.page_size) (hps2 : params.page_size ≤ 100)
    (h : searchMembers store params = some resp) :
    resp.page_size = params.page_size ∧
    resp.total ≤ resp.total_pages * params.page_size ∧
    resp.total_pages * params.page_size < resp.total + params.page_size ∧
    (resp.total = 0 → resp.total_pages = 0) := by
  simp only [searchMembers] at h
  split at h
  · rw [Option.some.injEq] at h
    subst h
    dsimp only
    generalize (List.filter _ store).length = t
    have hpos : 0 < params.page_size := by omega
    have hmod := Nat.div_add_mod (t + params.page_size - 1) params.page_size
    have hlt : (t + params.page_size - 1) % params.page_size < params.page_size :=
      Nat.mod_lt _ hpos
    rw [Nat.mul_comm params.page_size ((t + params.page_size - 1) / params.page_size)] at hmod
    generalize hq : (t + params.page_size - 1) / params.page_size = q at hmod ⊢
    generalize hr : (t + params.page_size - 1) % params.page_size = r at hmod hlt
    refine ⟨rfl, ?_, ?_, ?_⟩
    · generalize q * params.page_size = m at hmod ⊢
      omega
    · generalize q * params.page_size = m at hmod ⊢
      omega
    · intro ht
      by_contra hq0
      have hle : params.page_size ≤ q * params.page_size :=
        Nat.le_mul_of_pos_left params.page_size (Nat.pos_of_ne_zero hq0)
      generalize q * params.page_size = m at hmod hle
      omega
  · exact absurd h (by simp)

/-- C10: a matcher lookup that returns the absence signal (no member
resolved, or a store-level failure) leaves the memo cache untouched, so
an immediately repeated lookup with the same key behaves exactly like a
fresh one against whatever store state it then sees (and can succeed
after a backfill). -/
theorem c10_cache_unchanged_on_miss
    (cache : MCache) (storeE : Except Unit (List MemberDoc)) (f l s ch : Str)
    (h : (findBioguideByNameState cache storeE f l s ch).1 = none) :
    (findBioguideByNameState cache storeE f l s ch).2 = cache ∧
    ∀ storeE2,
      findBioguideByNameState ((findBioguideByNameState cache storeE f l s ch).2)
          storeE2 f l s ch
        = findBioguideByNameState cache storeE2 f l s ch := by
  have h2 : (findBioguideByNameState cache storeE f l s ch).2 = cache := by
    simp only [findBioguideByNameState] at h ⊢
    repeat' split at h
    all_goals first
      | rfl
      | simp at h
  exact ⟨h2, fun storeE2 => by rw [h2]⟩

/-- C4 witness: the amended ceiling theorem applied to a one-member
store with the default parameters. -/
theorem c4_witness_ceiling :
    1 ≤ c4Params.page_size ∧ c4Params.page_size ≤ 100 ∧
    searchMembers [johnSmithDoc] c4Params = some c4WitnessResp ∧
    (c4WitnessResp.page_size = c4Params.page_size ∧
     c4WitnessResp.total ≤ c4WitnessResp.total_pages * c4Params.page_size ∧
     c4WitnessResp.total_pages * c4Params.page_size < c4WitnessResp.total + c4Params.page_size ∧
     (c4WitnessResp.total = 0 → c4WitnessResp.total_pages = 0)) :=
  ⟨by decide, by decide, by decide,
   c4_total_pages_is_unclamped_ceiling [johnSmithDoc] c4Params c4WitnessResp
     (by decide) (by decide) (by decide)⟩

/-- C10 witness: a miss against an empty store leaves the cache empty,
and the repeated lookup against a backfilled store behaves like a fresh
one. -/
theorem c10_witness_miss_then_backfill :
    (findBioguideByNameState [] (Except.ok []) ("John".data) ("Smith".data)
        ("CA".data) ("senate".data)).1 = none ∧
    (findBioguideByNameState [] (Except.ok []) ("John".data) ("Smith".data)
        ("CA".data) ("senate".data)).2 = [] ∧
    findBioguideByNameState
        ((findBioguideByNameState [] (Except.ok []) ("John".data) ("Smith".data)
          ("CA".data) ("senate".data)).2)
        (Except.ok [johnSmithDoc]) ("John".data) ("Smith".data) ("CA".data) ("senate".data)
      = findBioguideByNameState [] (Except.ok [johnSmithDoc]) ("John".data) ("Smith".data)
          ("CA".data) ("senate".data) :=
  ⟨by decide,
   (c10_cache_unchanged_on_miss [] (Except.ok []) ("John".data) ("Smith".data)
      ("CA".data) ("senate".data) (by decide)).1,
   (c10_cache_unchanged_on_miss [] (Except.ok []) ("John".data) ("Smith".data)
      ("CA".data) ("senate".data) (by decide)).2 (Except.ok [johnSmithDoc])⟩

/-- One sync-loop step neither counts nor changes the store when the
record's full-detail fetch fails (it only logs the attempted id). -/
theorem syncStep_preserves_on_fetch_none (client : CongressClientM) (now : Nat)
    (st : Nat × List BillDoc × List Str) (item : BillListItem)
    (h : fetchBillComplete client item.congress (lowerS item.btype) item.number now = none) :
    (syncStep client now st item).1 = st.1 ∧ (syncStep client now st item).2.1 = st.2.1 := by
  simp only [syncStep]
  repeat' split
  all_goals simp_all

/-- The sync-loop's count and store do not depend on the fetched-ids
instrumentation component of the accumulator. -/
theorem foldl_syncStep_fetched_irrel (client : CongressClientM) (now : Nat)
    (l : List BillListItem) :
    ∀ (c : Nat) (s : List BillDoc) (f f' : List Str),
      ((l.foldl (syncStep client now) (c, s, f)).1
          = (l.foldl (syncStep client now) (c, s, f')).1) ∧
      ((l.foldl (syncStep client now) (c, s, f)).2.1
          = (l.foldl (syncStep client now) (c, s, f')).2.1) := by
  induction l with
  | nil => intro c s f f'; exact ⟨rfl, rfl⟩
  | cons item rest ih =>
    intro c s f f'
    have hstep : ∀ g : List Str, ∃ c₁ s₁ g₁,
        syncStep client now (c, s, g) item = (c₁, s₁, g₁) ∧
        (c₁, s₁) = ((syncStep client now (c, s, f) item).1,
                    (syncStep client now (c, s, f) item).2.1) := by
      intro g
      refine ⟨(syncStep client now (c, s, g) item).1,
              (syncStep client now (c, s, g) item).2.1,
              (syncStep client now (c, s, g) item).2.2, rfl, ?_⟩
      simp only [syncStep]
      repeat' split
      all_goals rfl
    obtain ⟨c₁, s₁, g₁, he, hcs⟩ := hstep f
    obtain ⟨c₂, s₂, g₂, he', hcs'⟩ := hstep f'
    have hcc : (c₁, s₁) = (c₂, s₂) := hcs.trans hcs'.symm
    have hc : c₁ = c₂ := congrArg Prod.fst hcc
    have hs : s₁ = s₂ := congrArg Prod.snd hcc
    simp only [List.foldl_cons, he, he']
    subst hc hs
    exact ih c₁ s₁ g₁ g₂

/-- C6: failure isolation in bill fetching.  (1) A failed primary fetch
aborts that record: `fetch_bill_complete` returns `None`.  (2) Failed
secondary fetches (summaries, subjects) do not: the bill is still
produced, with the secondary data recorded as absent.  (3) A record
whose fetch fails contributes nothing to the sync batch: the loop's
count and store over `l1 ++ [bad] ++ l2` equal those over `l1 ++ l2`,
so the remaining records are processed unchanged. -/
theorem c6_secondary_failures_tolerated_primary_aborts_record :
    (∀ (client : CongressClientM) (c : Option Nat) (t : Str) (n : Option Nat) (now : Nat),
      client.getBillU c t n = Except.error () →
      fetchBillComplete client c t n now = none) ∧
    (∀ (client : CongressClientM) (c : Option Nat) (t : Str) (n : Option Nat) (now : Nat)
        (bd : BillData) (b : BillDoc),
      client.getBillU c t n = Except.ok bd →
      client.getSummariesU c t n = Except.error () →
      client.getSubjectsU c t n = Except.error () →
      transformBill client.stripHtmlU bd none none = some b →
      fetchBillComplete client c t n now = some { b with updated_at := some now } ∧
      b.summaries = [] ∧ b.legislative_subjects = [] ∧ b.policy_area = none) ∧
    (∀ (client : CongressClientM) (now : Nat) (acc : Nat × List BillDoc × List Str)
        (l1 l2 : List BillListItem) (bad : BillListItem),
      fetchBillComplete client bad.congress (lowerS bad.btype) bad.number now = none →
      ((l1 ++ bad :: l2).foldl (syncStep client now) acc).1
          = ((l1 ++ l2).foldl (syncStep client now) acc).1 ∧
      ((l1 ++ bad :: l2).foldl (syncStep client now) acc).2.1
          = ((l1 ++ l2).foldl (syncStep client now) acc).2.1) := by
  refine ⟨?_, ?_, ?_⟩
  · intro client c t n now h
    simp only [fetchBillComplete, h]
  · intro client c t n now bd b h1 h2 h3 h4
    have hb : b.summaries = [] ∧ b.legislative_subjects = [] ∧ b.policy_area = none := by
      simp only [transformBill] at h4
      split at h4
      · exact absurd h4 (by simp)
      · split at h4
        · exact absurd h4 (by simp)
        · rw [Option.some.injEq] at h4
          subst h4
          exact ⟨rfl, rfl, rfl⟩
    refine ⟨?_, hb⟩
    simp only [fetchBillComplete, h1, h2, h3, Except.toOption, h4]
  · intro client now acc l1 l2 bad h
    rw [List.foldl_append, List.foldl_append, List.foldl_cons]
    obtain ⟨hc, hs⟩ := syncStep_preserves_on_fetch_none client now
      (l1.foldl (syncStep client now) acc) bad h
    have hshape : ∃ g, syncStep client now (l1.foldl (syncStep client now) acc) bad
        = ((l1.foldl (syncStep client now) acc).1,
           (l1.foldl (syncStep client now) acc).2.1, g) := by
      refine ⟨(syncStep client now (l1.foldl (syncStep client now) acc) bad).2.2, ?_⟩
      rw [← hc, ← hs]
    obtain ⟨g, hg⟩ := hshape
    rw [hg]
    have := foldl_syncStep_fetched_irrel client now l2
      (l1.foldl (syncStep client now) acc).1
      (l1.foldl (syncStep client now) acc).2.1
      g (l1.foldl (syncStep client now) acc).2.2
    convert this using 2

/-- C6 witness: the three failure-isolation facts applied to concrete
clients — an all-failing client aborts the record, a client with only
secondary failures still produces the bill, and a failing record in a
one-item batch leaves count and store as for the empty batch. -/
theorem c6_witness_concrete :
    fetchBillComplete failingClient (some 119) ("hr".data) (some 1) 0 = none ∧
    (fetchBillComplete partialClient (some 119) ("hr".data) (some 1) 5
        = some { hr1Transformed with updated_at := some 5 } ∧
      hr1Transformed.summaries = [] ∧ hr1Transformed.legislative_subjects = [] ∧
      hr1Transformed.policy_area = none) ∧
    ((([] ++ hr1Item :: []).foldl (syncStep failingClient 0) (0, [], [])).1
        = (([] ++ []).foldl (syncStep failingClient 0) (0, [], [])).1 ∧
     (([] ++ hr1Item :: []).foldl (syncStep failingClient 0) (0, [], [])).2.1
        = (([] ++ []).foldl (syncStep failingClient 0) (0, [], [])).2.1) :=
  ⟨c6_secondary_failures_tolerated_primary_aborts_record.1 failingClient (some 119)
     ("hr".data) (some 1) 0 rfl,
   c6_secondary_failures_tolerated_primary_aborts_record.2.1 partialClient (some 119)
     ("hr".data) (some 1) 5 hr1Data hr1Transformed rfl rfl rfl (by decide),
   c6_secondary_failures_tolerated_primary_aborts_record.2.2 failingClient 0
     (0, [], []) [] [] hr1Item rfl⟩

/-- C2 counterexample: when the upstream list fetch raises, the sync
catches the exception, returns 0, and does NOT mark the scope synced —
so an immediately following identical search in the same process
triggers a second sync invocation (1, not the claimed 0), with the
scope still unmarked. -/
theorem c2_counterexample_total_failure_resyncs :
    (searchBillsSvc failingClient (fun _ _ => false) [] billsParams119 emptySyncState 0).map
        (fun r => (r.2.1, r.2.2)) = some (emptySyncState, 1) ∧
    (searchBillsSvc failingClient (fun _ _ => false) [] billsParams119 emptySyncState 1).map
        (fun r => (r.2.1, r.2.2)) = some (emptySyncState, 1) := by
  exact ⟨by decide, by decide⟩

/-- C2 amended: when a bill search triggers a sync and the upstream
list fetch succeeds (per-record failures allowed), the scope is marked
synced, and an immediately following identical search in the same
process performs zero additional sync invocations and leaves the state
unchanged — even if results remain below the requested page size. -/
theorem c2_sync_marks_scope_and_second_search_skips
    (client : CongressClientM) (tm : Str → BillDoc → Bool) (ms : List MemberDoc)
    (params : BillsSearchParams) (st : SyncState) (now now2 : Nat)
    (resp1 : BillsResp) (st1 : SyncState) (items : List BillListItem)
    (hlist : client.searchBillsU (billsTargetCongress params) = Except.ok items)
    (h1 : searchBillsSvc client tm ms params st now = some (resp1, st1, 1)) :
    billsTargetCongress params ∈ st1.synced ∧
    ∃ resp2, searchBillsSvc client tm ms params st1 now2 = some (resp2, st1, 0) := by
  simp only [searchBillsSvc] at h1
  split at h1
  case isFalse => exact absurd h1 (by simp)
  case isTrue hval =>
    rw [Option.some.injEq] at h1
    have hst1 := congrArg (fun x => x.2.1) h1
    have hinv := congrArg (fun x => x.2.2) h1
    simp only at hst1 hinv
    revert hst1 hinv
    split
    case isTrue hcond =>
      intro hst1 hinv
      -- the sync ran: the list fetch succeeded, so the congress is marked
      have hnotin : st.synced.contains (billsTargetCongress params) = false := by
        rcases Bool.eq_false_or_eq_true (st.synced.contains (billsTargetCongress params)) with
          hf | ht
        · rw [hf] at hcond
          simp at hcond
        · exact ht
      have hsync : (syncRecentBills client st (billsTargetCongress params) now).2.1.synced
          = billsTargetCongress params :: st.synced := by
        simp only [syncRecentBills, hnotin, hlist]
        simp
      rw [← hst1]
      constructor
      · rw [hsync]
        exact List.mem_cons_self _ _
      · have hcont2 : ((syncRecentBills client st (billsTargetCongress params) now).2.1.synced.contains
            (billsTargetCongress params)) = true := by
          rw [hsync]
          simp [List.contains]
        simp only [searchBillsSvc, hval, if_true, hcont2, Bool.not_true, Bool.and_false,
          Bool.false_eq_true, if_false]
        exact ⟨_, rfl⟩
    case isFalse =>
      intro hst1 hinv
      simp at hinv

/-- C2 witness: with a client whose list fetch succeeds but whose
per-record fetches fail (a partial failure), the first search triggers
the one sync, congress 119 is marked, and the identical second search
performs zero sync invocations, even though zero results were stored. -/
theorem c2_witness_partial_failure_still_marks :
    partialListClient.searchBillsU (billsTargetCongress billsParams119)
        = Except.ok [hr1Item] ∧
    searchBillsSvc partialListClient (fun _ _ => false) [] billsParams119 emptySyncState 0
        = some (c2Resp1, c2St1, 1) ∧
    (billsTargetCongress billsParams119 ∈ c2St1.synced ∧
     ∃ resp2, searchBillsSvc partialListClient (fun _ _ => false) [] billsParams119 c2St1 7
        = some (resp2, c2St1, 0)) :=
  ⟨rfl, by decide,
   c2_sync_marks_scope_and_second_search_skips partialListClient (fun _ _ => false) []
     billsParams119 emptySyncState 0 7 c2Resp1 c2St1 [hr1Item] rfl (by decide)⟩

/-- An upsert with a different filter id leaves a document at its
position untouched. -/
theorem upsertBill_get?_of_bne (s : List BillDoc) (fid : Str) (nd : BillDoc) :
    ∀ (i : Nat) (d0 : BillDoc), s.get? i = some d0 → (d0.bill_id == fid) = false →
      (upsertBill s fid nd).get? i = some d0 := by
  induction s with
  | nil => intro i d0 h _; simp at h
  | cons d ds ih =>
    intro i d0 h hne
    simp only [upsertBill]
    split
    case isTrue heq =>
      match i with
      | 0 =>
        simp only [List.get?] at h
        rw [Option.some.injEq] at h
        subst h
        rw [heq] at hne
        simp at hne
      | i' + 1 =>
        simp only [List.get?] at h ⊢
        exact h
    case isFalse =>
      match i with
      | 0 => exact h
      | i' + 1 =>
        simp only [List.get?] at h ⊢
        exact ih i' d0 h hne

/-- `find?` on a cons whose head satisfies the predicate. -/
theorem find?_cons_pos {α : Type} (p : α → Bool) (a : α) (l : List α) (h : p a = true) :
    (a :: l).find? p = some a := by
  simp [List.find?_cons, h]

/-- `find?` on a cons whose head fails the predicate. -/
theorem find?_cons_neg {α : Type} (p : α → Bool) (a : α) (l : List α) (h : p a = false) :
    (a :: l).find? p = l.find? p := by
  simp [List.find?_cons, h]

/-- The first match for a bill id stays fresh (some document with an
under-an-hour timestamp is found first) across an upsert keyed by a
different id, provided the new document is stamped `now`. -/
theorem upsertBill_freshIdAt (now : Nat) (id fid : Str) (nd : BillDoc)
    (hne : fid ≠ id) (hnd : nd.updated_at = some now) :
    ∀ s : List BillDoc,
      (∃ doc t, s.find? (fun d => d.bill_id == id) = some doc ∧
        doc.updated_at = some t ∧ now - t < 3600) →
      ∃ doc t, (upsertBill s fid nd).find? (fun d => d.bill_id == id) = some doc ∧
        doc.updated_at = some t ∧ now - t < 3600 := by
  intro s
  induction s with
  | nil => intro h; obtain ⟨doc, t, hf, _⟩ := h; simp at hf
  | cons d ds ih =>
    intro h
    obtain ⟨doc, t, hf, hu, hl⟩ := h
    simp only [upsertBill]
    split
    case isTrue heq =>
      rw [beq_iff_eq] at heq
      have hdne : (fun x : BillDoc => x.bill_id == id) d = false := by
        simp only [beq_eq_false_iff_ne, ne_eq]
        intro hdid
        exact hne (heq.symm.trans hdid)
      rw [find?_cons_neg (fun x : BillDoc => x.bill_id == id) d ds hdne] at hf
      rcases hcase : (fun x : BillDoc => x.bill_id == id) nd with _ | _
      · exact ⟨doc, t, by
          rw [find?_cons_neg (fun x : BillDoc => x.bill_id == id) nd ds hcase]
          exact hf, hu, hl⟩
      · exact ⟨nd, now,
          find?_cons_pos (fun x : BillDoc => x.bill_id == id) nd ds hcase, hnd, by omega⟩
    case isFalse =>
      rcases hcase : (fun x : BillDoc => x.bill_id == id) d with _ | _
      · rw [find?_cons_neg (fun x : BillDoc => x.bill_id == id) d ds hcase] at hf
        obtain ⟨doc', t', hf', hu', hl'⟩ := ih ⟨doc, t, hf, hu, hl⟩
        exact ⟨doc', t', by
          rw [find?_cons_neg (fun x : BillDoc => x.bill_id == id) d
            (upsertBill ds fid nd) hcase]
          exact hf', hu', hl'⟩
      · rw [find?_cons_pos (fun x : BillDoc => x.bill_id == id) d ds hcase] at hf
        rw [Option.some.injEq] at hf
        subst hf
        exact ⟨d, t,
          find?_cons_pos (fun x : BillDoc => x.bill_id == id) d
            (upsertBill ds fid nd) hcase, hu, hl⟩

/-- A successful complete fetch stamps the document with `now`. -/
theorem fetchBillComplete_updated_at (client : CongressClientM) (c : Option Nat)
    (t : Str) (n : Option Nat) (now : Nat) (b : BillDoc)
    (h : fetchBillComplete client c t n now = some b) : b.updated_at = some now := by
  simp only [fetchBillComplete] at h
  split at h
  · exact absurd h (by simp)
  · split at h
    · exact absurd h (by simp)
    · rw [Option.some.injEq] at h
      subst h
      rfl

/-- One sync-loop step keeps the first match for a fresh bill id fresh,
fetches nothing for that id, and moves no document that carries it. -/
theorem syncStep_fresh_invariant (client : CongressClientM) (now : Nat) (id : Str)
    (acc : Nat × List BillDoc × List Str) (item : BillListItem)
    (hfr : ∃ doc t, acc.2.1.find? (fun d => d.bill_id == id) = some doc ∧
      doc.updated_at = some t ∧ now - t < 3600) :
    (∃ doc t, (syncStep client now acc item).2.1.find? (fun d => d.bill_id == id)
        = some doc ∧ doc.updated_at = some t ∧ now - t < 3600) ∧
    (∀ x ∈ (syncStep client now acc item).2.2, x ∈ acc.2.2 ∨ x ≠ id) ∧
    (∀ i d0, acc.2.1.get? i = some d0 → d0.bill_id = id →
      (syncStep client now acc item).2.1.get? i = some d0) := by
  simp only [syncStep]
  split
  case isTrue =>
    exact ⟨hfr, fun x hx => Or.inl hx, fun i d0 h1 _ => h1⟩
  case isFalse =>
    split
    case isTrue =>
      exact ⟨hfr, fun x hx => Or.inl hx, fun i d0 h1 _ => h1⟩
    case isFalse hns =>
      by_cases hbid :
          (lowerS item.btype ++ natOptStr item.number ++ '-' :: natOptStr item.congress) = id
      · exfalso
        apply hns
        obtain ⟨doc, t, hf, hu, hl⟩ := hfr
        rw [hbid, hf]
        simp [hu, hl]
      · split
        next b hb =>
          refine ⟨?_, ?_, ?_⟩
          · exact upsertBill_freshIdAt now id _ b hbid
              (fetchBillComplete_updated_at client item.congress (lowerS item.btype)
                item.number now b hb) acc.2.1 hfr
          · intro x hx
            rcases List.mem_append.mp hx with hx1 | hx2
            · exact Or.inl hx1
            · rcases List.mem_singleton.mp hx2 with rfl
              exact Or.inr hbid
          · intro i d0 h1 h2
            refine upsertBill_get?_of_bne acc.2.1 _ b i d0 h1 ?_
            simp only [beq_eq_false_iff_ne, ne_eq]
            intro hcontra
            exact hbid (hcontra.symm.trans h2)
        next hb =>
          refine ⟨hfr, ?_, fun i d0 h1 _ => h1⟩
          intro x hx
          rcases List.mem_append.mp hx with hx1 | hx2
          · exact Or.inl hx1
          · rcases List.mem_singleton.mp hx2 with rfl
            exact Or.inr hbid

/-- The sync loop keeps a fresh bill id fresh, never fetches it, and
never moves or rewrites a document carrying it. -/
theorem foldl_syncStep_fresh_invariant (client : CongressClientM) (now : Nat) (id : Str) :
    ∀ (items : List BillListItem) (acc : Nat × List BillDoc × List Str),
      (∃ doc t, acc.2.1.find? (fun d => d.bill_id == id) = some doc ∧
        doc.updated_at = some t ∧ now - t < 3600) →
      (∀ x ∈ (items.foldl (syncStep client now) acc).2.2, x ∈ acc.2.2 ∨ x ≠ id) ∧
      (∀ i d0, acc.2.1.get? i = some d0 → d0.bill_id = id →
        (items.foldl (syncStep client now) acc).2.1.get? i = some d0) := by
  intro items
  induction items with
  | nil => exact fun acc _ => ⟨fun x hx => Or.inl hx, fun i d0 h1 _ => h1⟩
  | cons item rest ih =>
    intro acc hfr
    obtain ⟨hfr', hfetch', hpos'⟩ := syncStep_fresh_invariant client now id acc item hfr
    obtain ⟨hfetch'', hpos''⟩ := ih (syncStep client now acc item) hfr'
    rw [List.foldl_cons]
    refine ⟨?_, ?_⟩
    · intro x hx
      rcases hfetch'' x hx with hmem | hne
      · exact hfetch' x hmem
      · exact Or.inr hne
    · intro i d0 h1 h2
      exact hpos'' i d0 (hpos' i d0 h1 h2) h2

/-- C9: during a sync pass, a bill document that already exists as the
store's first match for its id with an update timestamp under one hour
old is left completely unchanged: no full-detail fetch is issued for
that id, and every stored document carrying that id keeps its position
and value. -/
theorem c9_fresh_bill_untouched
    (client : CongressClientM) (st : SyncState) (congress now : Nat) (id : Str)
    (doc : BillDoc) (t : Nat)
    (hfind : st.store.find? (fun d => d.bill_id == id) = some doc)
    (ht : doc.updated_at = some t) (hfresh : now - t < 3600) :
    id ∉ (syncRecentBills client st congress now).2.2 ∧
    ∀ i d0, st.store.get? i = some d0 → d0.bill_id = id →
      (syncRecentBills client st congress now).2.1.store.get? i = some d0 := by
  simp only [syncRecentBills]
  split
  case isTrue =>
    exact ⟨by simp, fun i d0 h1 _ => h1⟩
  case isFalse =>
    split
    case h_1 =>
      exact ⟨by simp, fun i d0 h1 _ => h1⟩
    case h_2 items hitems =>
      obtain ⟨hfetch, hpos⟩ := foldl_syncStep_fresh_invariant client now id items
        (0, st.store, []) ⟨doc, t, hfind, ht, hfresh⟩
      refine ⟨?_, ?_⟩
      · intro hmem
        rcases hfetch id hmem with hin | hne
        · simp at hin
        · exact hne rfl
      · intro i d0 h1 h2
        exact hpos i d0 h1 h2

/-- C9 witness: syncing congress 119 with a list that names the fresh
hr1 bill issues no fetch for it and leaves the stored document in
place. -/
theorem c9_witness_fresh_hr1_skipped :
    freshStore.store.find? (fun d => d.bill_id == ("hr1-119".data)) = some freshBillDoc ∧
    freshBillDoc.updated_at = some 50 ∧ 100 - 50 < 3600 ∧
    ("hr1-119".data) ∉ (syncRecentBills partialListClient freshStore 119 100).2.2 ∧
    (syncRecentBills partialListClient freshStore 119 100).2.1.store.get? 0
      = some freshBillDoc :=
  ⟨by decide, by decide, by decide,
   (c9_fresh_bill_untouched partialListClient freshStore 119 100 ("hr1-119".data)
      freshBillDoc 50 (by decide) (by decide) (by decide)).1,
   (c9_fresh_bill_untouched partialListClient freshStore 119 100 ("hr1-119".data)
      freshBillDoc 50 (by decide) (by decide) (by decide)).2 0 freshBillDoc
     (by decide) (by decide)⟩

/-- A cached value was put there as some pair's second component. -/
theorem cacheLookup_mem (c : MCache) (k v : Str) (h : cacheLookup c k = some v) :
    ∃ p ∈ c, p.2 = v := by
  simp only [cacheLookup, Option.map_eq_some'] at h
  obtain ⟨p, hfind, hv⟩ := h
  exact ⟨p, List.mem_of_find?_eq_some hfind, hv⟩

/-- Every identifier the matcher returns, and every value in its cache
afterwards, is the `bioguide_id` of a stored member — provided the
cache already had that property. -/
theorem findBioguide_values_from_store (cache : MCache) (ms : List MemberDoc)
    (f l s ch : Str)
    (hc : ∀ p ∈ cache, ∃ d ∈ ms, d.bioguide_id = p.2) :
    (∀ bid, (findBioguideByNameState cache (Except.ok ms) f l s ch).1 = some bid →
      ∃ d ∈ ms, d.bioguide_id = bid) ∧
    (∀ p ∈ (findBioguideByNameState cache (Except.ok ms) f l s ch).2,
      ∃ d ∈ ms, d.bioguide_id = p.2) := by
  simp only [findBioguideByNameState]
  split
  case h_1 v hv =>
    refine ⟨?_, hc⟩
    intro bid hbid
    rw [Option.some.injEq] at hbid
    subst hbid
    obtain ⟨p, hp, hv2⟩ := cacheLookup_mem _ _ _ hv
    exact hv2 ▸ hc p hp
  case h_2 =>
    split
    case h_1 a1 a2 =>
      split
      case h_1 m hm =>
        have hmem := List.mem_of_find?_eq_some hm
        refine ⟨?_, ?_⟩
        · intro bid hbid
          rw [Option.some.injEq] at hbid
          exact ⟨m, hmem, hbid⟩
        · intro p hp
          rcases List.mem_cons.mp hp with hhead | htail
          · exact ⟨m, hmem, by rw [hhead]⟩
          · exact hc p htail
      case h_2 =>
        split
        case h_1 a3 =>
          split
          case h_1 m hm =>
            have hmem := List.mem_of_find?_eq_some hm
            refine ⟨?_, ?_⟩
            · intro bid hbid
              rw [Option.some.injEq] at hbid
              exact ⟨m, hmem, hbid⟩
            · intro p hp
              rcases List.mem_cons.mp hp with hhead | htail
              · exact ⟨m, hmem, by rw [hhead]⟩
              · exact hc p htail
          case h_2 =>
            exact ⟨fun bid hbid => absurd hbid (by simp), hc⟩
        case h_2 =>
          exact ⟨fun bid hbid => absurd hbid (by simp), hc⟩
    case h_2 =>
      exact ⟨fun bid hbid => absurd hbid (by simp), hc⟩

/-- Every matched member produced by the Senate matching loop carries
the `bioguide_id` of a stored member. -/
theorem matchSenateAux_values (ms : List MemberDoc) (xs : List XmlMember) :
    ∀ cache : MCache, (∀ p ∈ cache, ∃ d ∈ ms, d.bioguide_id = p.2) →
      ∀ mm ∈ matchSenateMembersAux (Except.ok ms) cache xs,
        ∃ d ∈ ms, d.bioguide_id = mm.bioguideId := by
  induction xs with
  | nil => intro cache _ mm hmm; simp [matchSenateMembersAux] at hmm
  | cons xm rest ih =>
    intro cache hc mm hmm
    obtain ⟨hval, hcache'⟩ := findBioguide_values_from_store cache ms xm.first_name
      xm.last_name xm.state ('s' :: 'e' :: 'n' :: 'a' :: 't' :: 'e' :: []) hc
    simp only [matchSenateMembersAux] at hmm
    revert hmm
    split
    case h_1 bid hbid =>
      intro hmm
      rcases List.mem_cons.mp hmm with hhead | htail
      · rw [hhead]
        exact hval bid hbid
      · exact ih _ hcache' mm htail
    case h_2 =>
      intro hmm
      exact ih _ hcache' mm hmm

/-- Keys of an association-set are the new key or old keys. -/
theorem assocSet_mem (lst : List (Str × Str)) (k v : Str) :
    ∀ kv ∈ assocSet lst k v, kv.1 = k ∨ kv ∈ lst := by
  intro kv hkv
  simp only [assocSet] at hkv
  split at hkv
  · rcases List.mem_map.mp hkv with ⟨q, hq, hmap⟩
    revert hmap
    split
    · intro hmap
      rw [← hmap]
      exact Or.inl rfl
    · intro hmap
      exact Or.inr (hmap ▸ hq)
  · rcases List.mem_append.mp hkv with h1 | h2
    · exact Or.inr h1
    · rcases List.mem_singleton.mp h2 with rfl
      exact Or.inl rfl

/-- Every key of the built member-votes mapping is the `bioguideId` of
one of the matched members. -/
theorem buildMemberVotes_keys (P : Str → Prop) :
    ∀ (ms : List MatchedMember) (acc : List (Str × Str)),
      (∀ kv ∈ acc, P kv.1) → (∀ mm ∈ ms, P mm.bioguideId) →
      ∀ kv ∈ ms.foldl
        (fun acc m =>
          if !m.bioguideId.isEmpty && !m.vote.isEmpty then assocSet acc m.bioguideId m.vote
          else acc) acc,
        P kv.1 := by
  intro ms
  induction ms with
  | nil => intro acc hacc _ kv hkv; exact hacc kv hkv
  | cons m rest ih =>
    intro acc hacc hms kv hkv
    rw [List.foldl_cons] at hkv
    refine ih _ ?_ (fun mm hmm => hms mm (List.mem_cons_of_mem m hmm)) kv hkv
    intro kv' hkv'
    revert hkv'
    split
    · intro hkv'
      rcases assocSet_mem acc m.bioguideId m.vote kv' hkv' with hk | hold
      · exact hk ▸ hms m (List.mem_cons_self m rest)
      · exact hacc kv' hold
    · intro hkv'
      exact hacc kv' hkv'

/-- C5: every key of the `member_votes` mapping a Senate vote document
stores is the `bioguide_id` of a member present in the member
collection — unresolvable XML records contribute no entry, and no
dangling or synthetic key is ever stored. -/
theorem c5_member_votes_keys_resolvable (ms : List MemberDoc) (xml : XmlVoteData) :
    ∀ kv ∈ senateVoteMemberVotes (Except.ok ms) xml, ∃ d ∈ ms, d.bioguide_id = kv.1 := by
  intro kv hkv
  simp only [senateVoteMemberVotes, buildMemberVotes] at hkv
  exact buildMemberVotes_keys (fun k => ∃ d ∈ ms, d.bioguide_id = k)
    (matchSenateMembers (Except.ok ms) xml.members) [] (by simp)
    (fun mm hmm => matchSenateAux_values ms xml.members [] (by simp) mm hmm) kv hkv

/-- C5 witness: the sample XML vote against a store holding John Smith
produces exactly the key `S002`, which resolves in the store. -/
theorem c5_witness_john_smith :
    ("S002".data, "Yea".data) ∈ senateVoteMemberVotes (Except.ok [johnSmithDoc]) xmlVoteSample ∧
    ∃ d ∈ [johnSmithDoc], d.bioguide_id = ("S002".data, "Yea".data).1 :=
  ⟨by decide,
   c5_member_votes_keys_resolvable [johnSmithDoc] xmlVoteSample
     ("S002".data, "Yea".data) (by decide)⟩

/-!
## Character-level facts

The query builders and the matcher lemmas below need arithmetic facts
about ASCII case folding, word characters and the metacharacter sets.
Everything is reduced to `Char.toNat`. -/

theorem char_eq_of_toNat_eq {a b : Char} (h : a.toNat = b.toNat) : a = b := by
  have ha := Char.ofNat_toNat a
  have hb := Char.ofNat_toNat b
  rw [← ha, ← hb, h]

theorem charBeq_iff_toNat {a b : Char} : (a == b) = true ↔ a.toNat = b.toNat := by
  constructor
  · intro h
    exact congrArg Char.toNat (eq_of_beq h)
  · intro h
    have he := char_eq_of_toNat_eq h
    rw [he]
    exact beq_self_eq_true b

theorem charBeq_num_false {c : Char} (x : Char) (n : Nat) (hx : x.toNat = n)
    (h : c.toNat ≠ n) : (c == x) = false := by
  cases hbe : (c == x) with
  | false => rfl
  | true =>
    exact absurd ((congrArg Char.toNat (eq_of_beq hbe)).trans hx) h

theorem char_le_iff_toNat {a b : Char} : a ≤ b ↔ a.toNat ≤ b.toNat := by
  rw [Char.le_def, UInt32.le_def]
  exact BitVec.le_def

theorem char_eq_iff_toNat {a b : Char} : a = b ↔ a.toNat = b.toNat := by
  constructor
  · intro h
    rw [h]
  · intro h
    have ha := Char.ofNat_toNat a
    rw [← ha, h, Char.ofNat_toNat]

theorem isWordC_iff {c : Char} : isWordC c = true ↔
    (97 ≤ c.toNat ∧ c.toNat ≤ 122) ∨ (65 ≤ c.toNat ∧ c.toNat ≤ 90) ∨
    (48 ≤ c.toNat ∧ c.toNat ≤ 57) ∨ c.toNat = 95 := by
  have e1 : ('a').toNat = 97 := by decide
  have e2 : ('z').toNat = 122 := by decide
  have e3 : ('A').toNat = 65 := by decide
  have e4 : ('Z').toNat = 90 := by decide
  have e5 : ('0').toNat = 48 := by decide
  have e6 : ('9').toNat = 57 := by decide
  have e7 : ('_').toNat = 95 := by decide
  simp only [isWordC, Bool.or_eq_true, decide_eq_true_eq, beq_iff_eq,
    char_le_iff_toNat, char_eq_iff_toNat, e1, e2, e3, e4, e5, e6, e7]
  omega

theorem isRegexSpecialC_iff {c : Char} : isRegexSpecialC c = true ↔
    c.toNat = 92 ∨ c.toNat = 46 ∨ c.toNat = 94 ∨ c.toNat = 36 ∨ c.toNat = 42 ∨
    c.toNat = 43 ∨ c.toNat = 63 ∨ c.toNat = 123 ∨ c.toNat = 125 ∨ c.toNat = 91 ∨
    c.toNat = 93 ∨ c.toNat = 40 ∨ c.toNat = 41 ∨ c.toNat = 124 := by
  have e1 : ('\\').toNat = 92 := by decide
  have e2 : ('.').toNat = 46 := by decide
  have e3 : ('^').toNat = 94 := by decide
  have e4 : ('$').toNat = 36 := by decide
  have e5 : ('*').toNat = 42 := by decide
  have e6 : ('+').toNat = 43 := by decide
  have e7 : ('?').toNat = 63 := by decide
  have e8 : ('\x7b').toNat = 123 := by decide
  have e9 : ('\x7d').toNat = 125 := by decide
  have e10 : ('[').toNat = 91 := by decide
  have e11 : (']').toNat = 93 := by decide
  have e12 : ('(').toNat = 40 := by decide
  have e13 : (')').toNat = 41 := by decide
  have e14 : ('|').toNat = 124 := by decide
  simp only [isRegexSpecialC, Bool.or_eq_true, beq_iff_eq, char_eq_iff_toNat,
    e1, e2, e3, e4, e5, e6, e7, e8, e9, e10, e11, e12, e13, e14]
  omega

theorem isSpaceC_iff {c : Char} : isSpaceC c = true ↔
    c.toNat = 32 ∨ c.toNat = 9 ∨ c.toNat = 10 ∨ c.toNat = 13 ∨ c.toNat = 11 ∨
    c.toNat = 12 := by
  have e1 : (' ').toNat = 32 := by decide
  have e2 : ('\t').toNat = 9 := by decide
  have e3 : ('\n').toNat = 10 := by decide
  have e4 : ('\x0d').toNat = 13 := by decide
  have e5 : ('\x0b').toNat = 11 := by decide
  have e6 : ('\x0c').toNat = 12 := by decide
  simp only [isSpaceC, Bool.or_eq_true, beq_iff_eq, char_eq_iff_toNat,
    e1, e2, e3, e4, e5, e6]
  omega

theorem tspPlainC_iff {c : Char} : tspPlainC c = true ↔
    ¬(c.toNat = 92 ∨ c.toNat = 91 ∨ c.toNat = 40 ∨ c.toNat = 41 ∨ c.toNat = 124) := by
  have e1 : ('\\').toNat = 92 := by decide
  have e2 : ('[').toNat = 91 := by decide
  have e3 : ('(').toNat = 40 := by decide
  have e4 : (')').toNat = 41 := by decide
  have e5 : ('|').toNat = 124 := by decide
  simp only [tspPlainC, Bool.not_eq_true', Bool.or_eq_false_iff, beq_eq_false_iff_ne,
    ne_eq, char_eq_iff_toNat, e1, e2, e3, e4, e5]
  omega

theorem lowerC_toNat (c : Char) :
    (lowerC c).toNat = if 65 ≤ c.toNat ∧ c.toNat ≤ 90 then c.toNat + 32 else c.toNat := by
  have e3 : ('A').toNat = 65 := by decide
  have e4 : ('Z').toNat = 90 := by decide
  unfold lowerC
  by_cases h : 'A' ≤ c ∧ c ≤ 'Z'
  · have h' : 65 ≤ c.toNat ∧ c.toNat ≤ 90 := by
      rcases h with ⟨h1, h2⟩
      rw [char_le_iff_toNat, e3] at h1
      rw [char_le_iff_toNat, e4] at h2
      exact ⟨h1, h2⟩
    rw [if_pos h, if_pos h']
    have hv : (c.toNat + 32).isValidChar := by
      left
      omega
    rw [Char.ofNat, dif_pos hv]
    simp [Char.toNat, Char.ofNatAux, UInt32.toNat, BitVec.toNat_ofNatLt]
  · have h' : ¬(65 ≤ c.toNat ∧ c.toNat ≤ 90) := by
      intro hc
      exact h ⟨(char_le_iff_toNat).mpr (by rw [e3]; exact hc.1),
               (char_le_iff_toNat).mpr (by rw [e4]; exact hc.2)⟩
    rw [if_neg h, if_neg h']

theorem ciEqC_toNat {a b : Char} (h : ciEqC a b = true) :
    (lowerC a).toNat = (lowerC b).toNat := by
  exact congrArg Char.toNat (eq_of_beq h)

theorem wordC_of_ciEqC {c x : Char} (hc : isWordC c = true) (h : ciEqC c x = true) :
    isWordC x = true := by
  have heq := ciEqC_toNat h
  have hl := lowerC_toNat c
  have hlx := lowerC_toNat x
  rw [isWordC_iff] at hc ⊢
  split at hl <;> split at hlx <;> omega

theorem ciEqC_false_of_word_nonword {c x : Char} (hc : isWordC c = true)
    (hx : isWordC x = false) : ciEqC c x = false := by
  cases h : ciEqC c x with
  | false => rfl
  | true => exact absurd (wordC_of_ciEqC hc h) (by rw [hx]; exact Bool.false_ne_true)

theorem wordC_not_special {c : Char} (h : isWordC c = true) :
    isRegexSpecialC c = false := by
  cases hs : isRegexSpecialC c with
  | false => rfl
  | true =>
    rw [isWordC_iff] at h
    rw [isRegexSpecialC_iff] at hs
    omega

theorem wordC_not_space {c : Char} (h : isWordC c = true) : isSpaceC c = false := by
  cases hs : isSpaceC c with
  | false => rfl
  | true =>
    rw [isWordC_iff] at h
    rw [isSpaceC_iff] at hs
    omega

theorem notSpecial_tspPlain {c : Char} (h : isRegexSpecialC c = false) :
    tspPlainC c = true := by
  rw [tspPlainC_iff]
  intro hc
  have : isRegexSpecialC c = true := by
    rw [isRegexSpecialC_iff]
    omega
  rw [h] at this
  exact Bool.false_ne_true this

theorem wordC_tspPlain {c : Char} (h : isWordC c = true) : tspPlainC c = true :=
  notSpecial_tspPlain (wordC_not_special h)

theorem notSpecial_beqs {c : Char} (h : isRegexSpecialC c = false) :
    (c == '\\') = false ∧ (c == '^') = false ∧ (c == '$') = false ∧ (c == '.') = false ∧
    (c == '[') = false ∧ (c == '(') = false ∧ (c == ')') = false ∧ (c == '|') = false ∧
    (c == '*') = false ∧ (c == '+') = false ∧ (c == '?') = false := by
  have hn : ¬(isRegexSpecialC c = true) := by
    rw [h]
    exact Bool.false_ne_true
  rw [isRegexSpecialC_iff] at hn
  refine ⟨charBeq_num_false _ 92 (by decide) (by omega),
          charBeq_num_false _ 94 (by decide) (by omega),
          charBeq_num_false _ 36 (by decide) (by omega),
          charBeq_num_false _ 46 (by decide) (by omega),
          charBeq_num_false _ 91 (by decide) (by omega),
          charBeq_num_false _ 40 (by decide) (by omega),
          charBeq_num_false _ 41 (by decide) (by omega),
          charBeq_num_false _ 124 (by decide) (by omega),
          charBeq_num_false _ 42 (by decide) (by omega),
          charBeq_num_false _ 43 (by decide) (by omega),
          charBeq_num_false _ 63 (by decide) (by omega)⟩

/-!
## Normalization and tokenization lemmas

How `_normalize_search_term`, `str.split()` and
`_escape_regex_special_chars` behave on whitespace-free words. -/

theorem dropWhile_eq_self_of_all {p : Char → Bool} :
    ∀ {l : Str}, (∀ c ∈ l, p c = false) → l.dropWhile p = l := by
  intro l
  induction l with
  | nil => intro _; rfl
  | cons x xs ih =>
    intro h
    rw [List.dropWhile_cons, h x (List.mem_cons_self x xs)]
    simp

theorem noWs_mem {s : Str} (h : noWsS s = true) : ∀ c ∈ s, isSpaceC c = false := by
  simp only [noWsS, List.all_eq_true, Bool.not_eq_true'] at h
  exact h

theorem pyStrip_noWs {s : Str} (h : noWsS s = true) : pyStrip s = s := by
  unfold pyStrip
  rw [dropWhile_eq_self_of_all (noWs_mem h)]
  rw [dropWhile_eq_self_of_all (fun c hc => noWs_mem h c (List.mem_reverse.mp hc))]
  exact List.reverse_reverse s

theorem collapseWs_noWs {s : Str} (h : noWsS s = true) : ∀ b, collapseWsAux b s = s := by
  induction s with
  | nil => intro b; rfl
  | cons x xs ih =>
    intro b
    have hx := noWs_mem h x (List.mem_cons_self x xs)
    have hxs : noWsS xs = true := by
      simp only [noWsS, List.all_eq_true] at h ⊢
      exact fun c hc => h c (List.mem_cons_of_mem x hc)
    simp only [collapseWsAux, hx]
    rw [ih hxs false]
    simp

theorem normalize_noWs {s : Str} (h : noWsS s = true) : normalizeSearchTerm s = s := by
  unfold normalizeSearchTerm
  rw [pyStrip_noWs h, collapseWs_noWs h false]

theorem splitWsAux_noWs : ∀ (s : Str) (cur : Str), noWsS s = true →
    (cur ≠ [] ∨ s ≠ []) → splitWsAux cur s = [cur.reverse ++ s] := by
  intro s
  induction s with
  | nil =>
    intro cur _ hne
    have hcur : cur ≠ [] := by
      rcases hne with h | h
      · exact h
      · exact absurd rfl h
    simp only [splitWsAux]
    rw [if_neg (by simpa [List.isEmpty_iff] using hcur)]
    simp
  | cons x xs ih =>
    intro cur h _
    have hx := noWs_mem h x (List.mem_cons_self x xs)
    have hxs : noWsS xs = true := by
      simp only [noWsS, List.all_eq_true] at h ⊢
      exact fun c hc => h c (List.mem_cons_of_mem x hc)
    simp only [splitWsAux, hx]
    rw [if_neg (by simp)]
    rw [ih (x :: cur) hxs (Or.inl (by simp))]
    simp

theorem splitWs_single {w : Str} (hw : noWsS w = true) (hne : w ≠ []) :
    splitWs w = [w] := by
  unfold splitWs
  rw [splitWsAux_noWs w [] hw (Or.inr hne)]
  simp

theorem splitWsAux_through (b : Str) : ∀ (a : Str) (cur : Str), noWsS a = true →
    splitWsAux cur (a ++ b) = splitWsAux (a.reverse ++ cur) b := by
  intro a
  induction a with
  | nil => intro cur _; simp
  | cons x xs ih =>
    intro cur h
    have hx := noWs_mem h x (List.mem_cons_self x xs)
    have hxs : noWsS xs = true := by
      simp only [noWsS, List.all_eq_true] at h ⊢
      exact fun c hc => h c (List.mem_cons_of_mem x hc)
    simp only [List.cons_append, splitWsAux, hx]
    rw [if_neg (by simp)]
    rw [List.append_eq, ih (x :: cur) hxs]
    simp

theorem splitWs_two {a b : Str} (ha : noWsS a = true) (hb : noWsS b = true)
    (hna : a ≠ []) (hnb : b ≠ []) : splitWs (a ++ ' ' :: b) = [a, b] := by
  unfold splitWs
  rw [splitWsAux_through (' ' :: b) a [] ha]
  have hsp : isSpaceC ' ' = true := by decide
  simp only [List.append_nil, splitWsAux, hsp]
  rw [if_pos trivial]
  rw [if_neg (by
    simp only [List.isEmpty_iff, List.reverse_eq_nil_iff]
    exact hna)]
  rw [splitWsAux_noWs b [] hb (Or.inr hnb)]
  simp

theorem pyStrip_two {a b : Str} (ha : noWsS a = true) (hb : noWsS b = true)
    (hna : a ≠ []) (hnb : b ≠ []) : pyStrip (a ++ ' ' :: b) = a ++ ' ' :: b := by
  obtain ⟨x, a', rfl⟩ : ∃ x a', a = x :: a' := by
    cases a with
    | nil => exact absurd rfl hna
    | cons x a' => exact ⟨x, a', rfl⟩
  obtain ⟨y, b', hbr⟩ : ∃ y b', b.reverse = y :: b' := by
    cases hbr : b.reverse with
    | nil => exact absurd (by simpa using congrArg List.reverse hbr) hnb
    | cons y b' => exact ⟨y, b', rfl⟩
  have hx := noWs_mem ha x (List.mem_cons_self x a')
  have hy : isSpaceC y = false := by
    refine noWs_mem hb y ?_
    have : y ∈ b.reverse := by rw [hbr]; exact List.mem_cons_self y b'
    exact List.mem_reverse.mp this
  unfold pyStrip
  rw [List.cons_append, List.dropWhile_cons, hx]
  simp only [Bool.false_eq_true, if_false]
  have hrev : (x :: (a' ++ ' ' :: b)).reverse = y :: (b' ++ ' ' :: (a'.reverse ++ [x])) := by
    rw [List.reverse_cons, List.reverse_append, List.reverse_cons, hbr]
    simp
  rw [hrev, List.dropWhile_cons, hy]
  simp only [Bool.false_eq_true, if_false]
  rw [← hrev, List.reverse_reverse]

theorem collapse_through {a : Str} (rest : Str) (ha : noWsS a = true) :
    collapseWsAux false (a ++ rest) = a ++ collapseWsAux false rest := by
  induction a with
  | nil => simp
  | cons x xs ih =>
    have hx := noWs_mem ha x (List.mem_cons_self x xs)
    have hxs : noWsS xs = true := by
      simp only [noWsS, List.all_eq_true] at ha ⊢
      exact fun c hc => ha c (List.mem_cons_of_mem x hc)
    simp only [List.cons_append, collapseWsAux, hx]
    rw [List.append_eq, ih hxs]
    simp

theorem normalize_two {a b : Str} (ha : noWsS a = true) (hb : noWsS b = true)
    (hna : a ≠ []) (hnb : b ≠ []) :
    normalizeSearchTerm (a ++ ' ' :: b) = a ++ ' ' :: b := by
  unfold normalizeSearchTerm
  rw [pyStrip_two ha hb hna hnb, collapse_through (' ' :: b) ha]
  have hsp : isSpaceC ' ' = true := by decide
  simp only [collapseWsAux, hsp]
  rw [if_pos trivial, if_neg (by simp)]
  rw [collapseWs_noWs hb true]

theorem noWs_of_allWord {w : Str} (h : allWordS w = true) : noWsS w = true := by
  simp only [allWordS, List.all_eq_true] at h
  simp only [noWsS, List.all_eq_true]
  intro c hc
  rw [wordC_not_space (h c hc)]
  rfl

theorem plain_of_allWord {w : Str} (h : allWordS w = true) : plainS w = true := by
  simp only [allWordS, List.all_eq_true] at h
  simp only [plainS, List.all_eq_true]
  intro c hc
  rw [wordC_not_special (h c hc)]
  rfl

theorem replaceCharEsc_id {c : Char} {s : Str} (h : ∀ x ∈ s, (x == c) = false) :
    replaceCharEsc c s = s := by
  induction s with
  | nil => rfl
  | cons x xs ih =>
    simp only [replaceCharEsc, List.flatMap_cons] at ih ⊢
    rw [h x (List.mem_cons_self x xs), ih (fun y hy => h y (List.mem_cons_of_mem x hy))]
    simp

theorem replace_special_id {c : Char} (hc : isRegexSpecialC c = true) {w : Str}
    (hall : ∀ x ∈ w, isRegexSpecialC x = false) : replaceCharEsc c w = w := by
  refine replaceCharEsc_id (fun x hx => ?_)
  cases hbe : x == c with
  | false => rfl
  | true =>
    have hxc := eq_of_beq hbe
    have := hall x hx
    rw [hxc, hc] at this
    exact absurd this (by simp)

theorem foldl_replace_id {w : Str} (hall : ∀ x ∈ w, isRegexSpecialC x = false) :
    ∀ cs : List Char, (∀ c ∈ cs, isRegexSpecialC c = true) →
      cs.foldl (fun acc c => replaceCharEsc c acc) w = w := by
  intro cs
  induction cs with
  | nil => intro _; rfl
  | cons c cs ih =>
    intro hcs
    simp only [List.foldl_cons]
    rw [replace_special_id (hcs c (List.mem_cons_self c cs)) hall]
    exact ih (fun d hd => hcs d (List.mem_cons_of_mem c hd))

theorem escRegex_plain_id {w : Str} (hw : plainS w = true) :
    escapeRegexSpecialChars w = w := by
  have hall : ∀ x ∈ w, isRegexSpecialC x = false := by
    simp only [plainS, List.all_eq_true, Bool.not_eq_true'] at hw
    exact hw
  unfold escapeRegexSpecialChars
  exact foldl_replace_id hall specialCharsList (by decide)

theorem buildName_single {w : Str} (hw : noWsS w = true) (hne : w ≠ []) :
    buildNameSearchQuery w = buildSingleWordQuery (escapeRegexSpecialChars w) := by
  unfold buildNameSearchQuery
  rw [normalize_noWs hw]
  rw [if_neg (by simpa [List.isEmpty_iff] using hne)]
  rw [splitWs_single hw hne]
  rfl

theorem buildName_two {a b : Str} (ha : noWsS a = true) (hb : noWsS b = true)
    (hna : a ≠ []) (hnb : b ≠ []) :
    buildNameSearchQuery (a ++ ' ' :: b) =
      buildTwoWordQuery (escapeRegexSpecialChars a) (escapeRegexSpecialChars b) := by
  unfold buildNameSearchQuery
  rw [normalize_two ha hb hna hnb]
  rw [if_neg (by
    simp only [List.isEmpty_iff]
    intro hcon
    exact hna (by cases a with | nil => rfl | cons x xs => exact absurd hcon (by simp)))]
  rw [splitWs_two ha hb hna hnb]
  rfl

/-!
## Parser lemmas

What `tsp`, `postfixSplit` and `parseSegF` produce on the patterns the
services build from metacharacter-free words. -/

theorem tsp00_plain_cons {c : Char} (hc : tspPlainC c = true) (cs : Str) :
    tsp false false 0 (c :: cs) = (tsp false false 0 cs).map (consSegL c) := by
  have hn := tspPlainC_iff.mp hc
  have h1 : (c == '\\') = false := charBeq_num_false _ 92 (by decide) (by omega)
  have h2 : (c == '[') = false := charBeq_num_false _ 91 (by decide) (by omega)
  have h3 : (c == '(') = false := charBeq_num_false _ 40 (by decide) (by omega)
  have h4 : (c == ')') = false := charBeq_num_false _ 41 (by decide) (by omega)
  have h5 : (c == '|') = false := charBeq_num_false _ 124 (by decide) (by omega)
  simp only [tsp, h1, h2, h3, h4, h5]
  simp

theorem tsp00_plain_str {w : Str} (hw : ∀ c ∈ w, tspPlainC c = true) :
    tsp false false 0 w = some [w] := by
  induction w with
  | nil => rfl
  | cons c cs ih =>
    rw [tsp00_plain_cons (hw c (List.mem_cons_self c cs)) cs,
      ih (fun d hd => hw d (List.mem_cons_of_mem c hd))]
    rfl

theorem tsp00_bPat {w : Str} (hw : ∀ c ∈ w, tspPlainC c = true) :
    tsp false false 0 (bPat w) = some [bPat w] := by
  have h1 : tsp true false 0 ('b' :: w) = (tsp false false 0 w).map (consSegL 'b') := by
    simp only [tsp]
    simp
  have h2 : tsp false false 0 ('\\' :: 'b' :: w) =
      (tsp true false 0 ('b' :: w)).map (consSegL '\\') := by
    simp only [tsp]
    simp
  show tsp false false 0 ('\\' :: 'b' :: w) = some [bPat w]
  rw [h2, h1, tsp00_plain_str hw]
  rfl

theorem postfixSplit_default {c : Char} (rest : Str) (h1 : (c == '*') = false)
    (h2 : (c == '+') = false) (h3 : (c == '?') = false) :
    postfixSplit (c :: rest) = (fun r => [r], c :: rest) := by
  unfold postfixSplit
  split
  · next rs heq =>
    rw [List.cons_eq_cons] at heq
    rw [heq.1] at h1
    simp at h1
  · next rs heq =>
    rw [List.cons_eq_cons] at heq
    rw [heq.1] at h2
    simp at h2
  · next rs heq =>
    rw [List.cons_eq_cons] at heq
    rw [heq.1] at h3
    simp at h3
  · rfl

theorem parseSegF_plain_cons {c : Char} (hs : isRegexSpecialC c = false) (fuel : Nat)
    (cs : Str) (hq : postfixSplit cs = (fun r => [r], cs)) :
    parseSegF (fuel + 1) (c :: cs) = (parseSegF fuel cs).map (fun t => Regex.lit c :: t) := by
  obtain ⟨h1, h2, h3, h4, h5, h6, h7, h8, h9, h10, h11⟩ := notSpecial_beqs hs
  simp only [parseSegF, h1, h2, h3, h4, h5, h6, h7, h8, h9, h10, h11, hq]
  simp

theorem postfixSplit_notSpecial (cs : Str) (h : plainS cs = true) :
    postfixSplit cs = (fun r => [r], cs) := by
  cases cs with
  | nil => rfl
  | cons c2 cs2 =>
    have hc2 : isRegexSpecialC c2 = false := by
      simp only [plainS, List.all_eq_true, Bool.not_eq_true'] at h
      exact h c2 (List.mem_cons_self c2 cs2)
    obtain ⟨_, _, _, _, _, _, _, _, h9, h10, h11⟩ := notSpecial_beqs hc2
    exact postfixSplit_default cs2 h9 h10 h11

theorem plainS_tail {c : Char} {cs : Str} (h : plainS (c :: cs) = true) :
    plainS cs = true := by
  simp only [plainS, List.all_eq_true] at h ⊢
  exact fun d hd => h d (List.mem_cons_of_mem c hd)

theorem plainS_head {c : Char} {cs : Str} (h : plainS (c :: cs) = true) :
    isRegexSpecialC c = false := by
  simp only [plainS, List.all_eq_true, Bool.not_eq_true'] at h
  exact h c (List.mem_cons_self c cs)

theorem parseSegF_plain_str {w : Str} (hw : plainS w = true) :
    ∀ fuel, w.length ≤ fuel → parseSegF fuel w = some (w.map Regex.lit) := by
  induction w with
  | nil =>
    intro fuel _
    cases fuel <;> rfl
  | cons c cs ih =>
    intro fuel hf
    obtain ⟨f, rfl⟩ : ∃ f, fuel = f + 1 := ⟨fuel - 1, by simp at hf; omega⟩
    rw [parseSegF_plain_cons (plainS_head hw) f cs
      (postfixSplit_notSpecial cs (plainS_tail hw))]
    rw [ih (plainS_tail hw) f (by simp at hf; omega)]
    rfl

theorem parseSegF_plain_eol {w : Str} (hw : plainS w = true) :
    ∀ fuel, w.length + 1 ≤ fuel →
      parseSegF fuel (w ++ ['$']) = some (w.map Regex.lit ++ [Regex.eol]) := by
  induction w with
  | nil =>
    intro fuel hf
    obtain ⟨f, rfl⟩ : ∃ f, fuel = f + 1 := ⟨fuel - 1, by omega⟩
    simp only [List.nil_append, parseSegF]
    simp
  | cons c cs ih =>
    intro fuel hf
    obtain ⟨f, rfl⟩ : ∃ f, fuel = f + 1 := ⟨fuel - 1, by simp at hf; omega⟩
    have hq : postfixSplit (cs ++ ['$']) = (fun r => [r], cs ++ ['$']) := by
      cases cs with
      | nil => rfl
      | cons c2 cs2 =>
        have hc2 : isRegexSpecialC c2 = false := plainS_head (plainS_tail hw)
        obtain ⟨_, _, _, _, _, _, _, _, h9, h10, h11⟩ := notSpecial_beqs hc2
        exact postfixSplit_default _ h9 h10 h11
    rw [List.cons_append, parseSegF_plain_cons (plainS_head hw) f (cs ++ ['$']) hq]
    rw [ih (plainS_tail hw) f (by simp at hf ⊢; omega)]
    rfl

theorem allWord_mem {w : Str} (h : allWordS w = true) : ∀ c ∈ w, isWordC c = true := by
  simp only [allWordS, List.all_eq_true] at h
  exact h

theorem parsePattern_bPat {w : Str} (hw : allWordS w = true) :
    parsePattern (bPat w) = some [Regex.wb :: w.map Regex.lit] := by
  unfold parsePattern
  rw [tsp00_bPat (fun c hc => wordC_tspPlain (allWord_mem hw c hc))]
  have hlen : 2 * (bPat w).length + 2 = (2 * w.length + 5) + 1 := by
    simp [bPat]
    omega
  simp only [Option.some_bind, List.mapM_cons, List.mapM_nil, hlen]
  have hstep : parseSegF ((2 * w.length + 5) + 1) (bPat w) =
      (parseSegF (2 * w.length + 5) w).map (fun t => Regex.wb :: t) := by
    show parseSegF ((2 * w.length + 5) + 1) ('\\' :: 'b' :: w) = _
    simp only [parseSegF]
    simp
  rw [hstep, parseSegF_plain_str (plain_of_allWord hw) (2 * w.length + 5) (by omega)]
  rfl

theorem parsePattern_anchored_exact {name : Str} (hp : plainS name = true) :
    parsePattern ('^' :: name ++ ['$']) =
      some [Regex.bol :: (name.map Regex.lit ++ [Regex.eol])] := by
  unfold parsePattern
  have htsp : tsp false false 0 ('^' :: name ++ ['$']) = some [('^' :: name ++ ['$'])] := by
    refine tsp00_plain_str (fun c hc => ?_)
    rcases List.mem_cons.mp hc with hh | ht
    · rw [hh]; decide
    · rcases List.mem_append.mp ht with hn | hd
      · exact notSpecial_tspPlain (by
          simp only [plainS, List.all_eq_true, Bool.not_eq_true'] at hp
          exact hp c hn)
      · rw [List.mem_singleton.mp hd]; decide
  rw [htsp]
  have hlen : 2 * ('^' :: name ++ ['$']).length + 2 = (2 * name.length + 5) + 1 := by
    simp
    omega
  simp only [Option.some_bind, List.mapM_cons, List.mapM_nil, hlen]
  have hstep : parseSegF ((2 * name.length + 5) + 1) ('^' :: name ++ ['$']) =
      (parseSegF (2 * name.length + 5) (name ++ ['$'])).map (fun t => Regex.bol :: t) := by
    simp only [parseSegF]
    simp
  rw [hstep, parseSegF_plain_eol hp (2 * name.length + 5) (by omega)]
  rfl

theorem parsePattern_anchored_pref {name : Str} (hp : plainS name = true) :
    parsePattern ('^' :: name) = some [Regex.bol :: name.map Regex.lit] := by
  unfold parsePattern
  have htsp : tsp false false 0 ('^' :: name) = some [('^' :: name)] := by
    refine tsp00_plain_str (fun c hc => ?_)
    rcases List.mem_cons.mp hc with hh | ht
    · rw [hh]; decide
    · exact notSpecial_tspPlain (by
        simp only [plainS, List.all_eq_true, Bool.not_eq_true'] at hp
        exact hp c ht)
  rw [htsp]
  have hlen : 2 * ('^' :: name).length + 2 = (2 * name.length + 3) + 1 := by
    simp
    omega
  simp only [Option.some_bind, List.mapM_cons, List.mapM_nil, hlen]
  have hstep : parseSegF ((2 * name.length + 3) + 1) ('^' :: name) =
      (parseSegF (2 * name.length + 3) name).map (fun t => Regex.bol :: t) := by
    simp only [parseSegF]
    simp
  rw [hstep, parseSegF_plain_str hp (2 * name.length + 3) (by omega)]
  rfl

/-!
## Matcher lemmas

How the fuelled matcher behaves on the atom sequences that the
services' patterns parse to. -/

theorem msplitOne_lit_nil (fuel : Nat) (c : Char) (prev : Option Char) :
    msplitOne fuel (Regex.lit c) prev [] = [] := by
  cases fuel <;> rfl

theorem msplitOne_lit_cons (fuel : Nat) (c : Char) (prev : Option Char) (x : Char)
    (xs : Str) :
    msplitOne fuel (Regex.lit c) prev (x :: xs) = if ciEqC c x then [(some x, xs)] else [] := by
  cases fuel <;> rfl

theorem msplitOne_eol (fuel : Nat) (prev : Option Char) (s : Str) :
    msplitOne fuel Regex.eol prev s = if eolHereB s then [(prev, s)] else [] := by
  cases fuel <;> rfl

theorem msplitOne_wb (fuel : Nat) (prev : Option Char) (s : Str) :
    msplitOne fuel Regex.wb prev s = if wordBoundaryB prev s then [(prev, s)] else [] := by
  cases fuel <;> rfl

theorem msplitOne_bol (fuel : Nat) (prev : Option Char) (s : Str) :
    msplitOne fuel Regex.bol prev s = if prev.isNone then [(prev, s)] else [] := by
  cases fuel <;> rfl

theorem msplitSeq_nil (fuel : Nat) (prev : Option Char) (s : Str) :
    msplitSeq fuel [] prev s = [(prev, s)] := by
  cases fuel <;> rfl

theorem msplitSeq_cons (fuel : Nat) (r : Regex) (rest : List Regex) (prev : Option Char)
    (s : Str) :
    msplitSeq (fuel + 1) (r :: rest) prev s =
      (msplitOne fuel r prev s).flatMap (fun pr => msplitSeq fuel rest pr.1 pr.2) := rfl

theorem msplitSeq_lits {w : Str} : ∀ (fuel : Nat) (prev : Option Char) (s : Str),
    w.length ≤ fuel →
    (msplitSeq fuel (w.map Regex.lit) prev s).isEmpty = !(ciPrefList w s) := by
  induction w with
  | nil =>
    intro fuel prev s _
    rw [List.map_nil, msplitSeq_nil]
    rfl
  | cons c cs ih =>
    intro fuel prev s hf
    obtain ⟨f, rfl⟩ : ∃ f, fuel = f + 1 := ⟨fuel - 1, by simp at hf; omega⟩
    rw [List.map_cons, msplitSeq_cons]
    cases s with
    | nil => simp [msplitOne_lit_nil, ciPrefList]
    | cons x xs =>
      rw [msplitOne_lit_cons]
      cases hc : ciEqC c x with
      | true =>
        rw [if_pos rfl]
        simp only [List.flatMap_cons, List.flatMap_nil, List.append_nil]
        rw [ih f (some x) xs (by simp at hf; omega)]
        simp [ciPrefList, hc]
      | false =>
        simp [ciPrefList, hc]

theorem noNl_mem {s : Str} (h : noNlS s = true) : ∀ c ∈ s, (c == '\n') = false := by
  simp only [noNlS, List.all_eq_true, Bool.not_eq_true'] at h
  exact h

theorem msplitSeq_lits_eol {w : Str} : ∀ (fuel : Nat) (prev : Option Char) (s : Str),
    w.length + 1 ≤ fuel → noNlS s = true →
    (msplitSeq fuel (w.map Regex.lit ++ [Regex.eol]) prev s).isEmpty = !(ciEqList w s) := by
  induction w with
  | nil =>
    intro fuel prev s hf hs
    obtain ⟨f, rfl⟩ : ∃ f, fuel = f + 1 := ⟨fuel - 1, by omega⟩
    rw [List.map_nil, List.nil_append, msplitSeq_cons, msplitOne_eol]
    cases s with
    | nil => simp [eolHereB, ciEqList, msplitSeq_nil]
    | cons x xs =>
      have hx := noNl_mem hs x (List.mem_cons_self x xs)
      have heol : eolHereB (x :: xs) = false := by
        simp only [eolHereB]
        cases xs with
        | nil => simp [hx]
        | cons y ys => simp
      simp [heol, ciEqList]
  | cons c cs ih =>
    intro fuel prev s hf hs
    obtain ⟨f, rfl⟩ : ∃ f, fuel = f + 1 := ⟨fuel - 1, by omega⟩
    rw [List.map_cons, List.cons_append, msplitSeq_cons]
    cases s with
    | nil => simp [msplitOne_lit_nil, ciEqList]
    | cons x xs =>
      rw [msplitOne_lit_cons]
      cases hc : ciEqC c x with
      | true =>
        rw [if_pos rfl]
        simp only [List.flatMap_cons, List.flatMap_nil, List.append_nil]
        rw [ih f (some x) xs (by simp at hf; omega)
          (by
            simp only [noNlS, List.all_eq_true] at hs ⊢
            exact fun d hd => hs d (List.mem_cons_of_mem x hd))]
        simp [ciEqList, hc]
      | false =>
        simp [ciEqList, hc]

theorem matchHere_wb_lits {w : Str} (fuel : Nat) (prev : Option Char) (s : Str)
    (hf : w.length + 1 ≤ fuel) :
    (msplitSeq fuel (Regex.wb :: w.map Regex.lit) prev s).isEmpty
      = !(wordBoundaryB prev s && ciPrefList w s) := by
  obtain ⟨f, rfl⟩ : ∃ f, fuel = f + 1 := ⟨fuel - 1, by omega⟩
  rw [msplitSeq_cons, msplitOne_wb]
  cases hwb : wordBoundaryB prev s with
  | true =>
    rw [if_pos rfl]
    simp only [List.flatMap_cons, List.flatMap_nil, List.append_nil]
    rw [msplitSeq_lits f prev s (by omega)]
    simp
  | false =>
    simp

theorem wordBoundaryB_cons (prev : Option Char) (x : Char) (xs : Str) :
    wordBoundaryB prev (x :: xs) = (prevWordB prev != isWordC x) := rfl

theorem wordBoundaryB_nil (prev : Option Char) :
    wordBoundaryB prev [] = (prevWordB prev != false) := rfl

theorem ciPref_takeWhile {w : Str} (hw : allWordS w = true) :
    ∀ t, ciPrefList w t = ciPrefList w (t.takeWhile isWordC) := by
  induction w with
  | nil => intro t; cases t <;> rfl
  | cons c cs ih =>
    intro t
    have hc : isWordC c = true := allWord_mem hw c (List.mem_cons_self c cs)
    have hcs : allWordS cs = true := by
      simp only [allWordS, List.all_eq_true] at hw ⊢
      exact fun d hd => hw d (List.mem_cons_of_mem c hd)
    cases t with
    | nil => rfl
    | cons x xs =>
      cases hx : isWordC x with
      | true =>
        rw [List.takeWhile_cons, hx]
        simp only [ciPrefList]
        rw [ih hcs xs]
      | false =>
        rw [List.takeWhile_cons, hx]
        simp only [ciPrefList]
        rw [ciEqC_false_of_word_nonword hc hx]
        simp

theorem matchHereB_single (fuel : Nat) (sq : List Regex) (prev : Option Char) (s : Str) :
    matchHereB fuel [sq] prev s = !(msplitSeq fuel sq prev s).isEmpty := by
  simp [matchHereB]

theorem searchFrom_step (fuel : Nat) (alts : List (List Regex)) (prev : Option Char)
    (x : Char) (xs : Str) :
    searchFrom fuel alts prev (x :: xs) =
      (matchHereB fuel alts prev (x :: xs) || searchFrom fuel alts (some x) xs) := rfl

theorem searchFrom_nil (fuel : Nat) (alts : List (List Regex)) (prev : Option Char) :
    searchFrom fuel alts prev [] = matchHereB fuel alts prev [] := by
  simp [searchFrom]

theorem ciPref_nil_false {w : Str} (hne : w ≠ []) : ciPrefList w [] = false := by
  cases w with
  | nil => exact absurd rfl hne
  | cons c cs => rfl

theorem searchFrom_wb_runs {w : Str} (hw : allWordS w = true) (hne : w ≠ [])
    (fuel : Nat) (hf : w.length + 1 ≤ fuel) :
    ∀ (s : Str) (prev : Option Char),
      searchFrom fuel [Regex.wb :: w.map Regex.lit] prev s
        = (wordRunsCtx (prevWordB prev) s).any (fun run => ciPrefList w run) := by
  intro s
  induction s with
  | nil =>
    intro prev
    rw [searchFrom_nil, matchHereB_single, matchHere_wb_lits fuel prev [] hf]
    rw [ciPref_nil_false hne]
    simp [wordRunsCtx]
  | cons x xs ih =>
    intro prev
    rw [searchFrom_step, matchHereB_single, matchHere_wb_lits fuel prev (x :: xs) hf]
    rw [ih (some x), wordBoundaryB_cons]
    have hpx : prevWordB (some x) = isWordC x := rfl
    cases hx : isWordC x with
    | true =>
      cases hp : prevWordB prev with
      | true =>
        have hruns : wordRunsCtx true (x :: xs) = wordRunsCtx true xs := by
          simp [wordRunsCtx, hx]
        rw [hruns, hpx, hx]
        simp
      | false =>
        have hruns : wordRunsCtx false (x :: xs) =
            (x :: xs.takeWhile isWordC) :: wordRunsCtx true xs := by
          simp [wordRunsCtx, hx]
        rw [hruns, hpx, hx]
        have hpt : ciPrefList w (x :: xs) = ciPrefList w (x :: xs.takeWhile isWordC) := by
          rw [ciPref_takeWhile hw (x :: xs), List.takeWhile_cons, hx]
          simp
        simp only [List.any_cons]
        rw [← hpt]
        simp
    | false =>
      have hcp : ciPrefList w (x :: xs) = false := by
        cases w with
        | nil => exact absurd rfl hne
        | cons c cs =>
          simp only [ciPrefList]
          rw [ciEqC_false_of_word_nonword (allWord_mem hw c (List.mem_cons_self c cs)) hx]
          simp
      have hruns : wordRunsCtx (prevWordB prev) (x :: xs) = wordRunsCtx false xs := by
        cases hp : prevWordB prev <;> simp [wordRunsCtx, hx]
      rw [hruns, hpx, hx, hcp]
      simp

theorem regexSearchI_bPat_runs {w : Str} (hw : allWordS w = true) (hne : w ≠ [])
    (t : Str) : regexSearchI (bPat w) t = some (wordRunPrefMatch w t) := by
  unfold regexSearchI
  rw [parsePattern_bPat hw]
  have hfuel : w.length + 1 ≤ fuelFor (bPat w).length t := by
    have h2 : 2 * (4 * (bPat w).length + 8) ≤ (t.length + 2) * (4 * (bPat w).length + 8) :=
      Nat.mul_le_mul_right _ (by omega)
    have hlen : (bPat w).length = w.length + 2 := by simp [bPat]
    unfold fuelFor
    omega
  rw [Option.map_some']
  congr 1
  rw [searchFrom_wb_runs hw hne (fuelFor (bPat w).length t) hfuel t none]
  rfl

/-- C7 counterexample: the single-word predicate for `"Kate"` matches
the member whose first name is `"Mary-Kate"`, although `"Kate"` is not
a case-insensitive prefix of any whitespace-delimited word of the
member's first name, last name or full name: the regex `\b` anchor
binds at the internal hyphen, not only at whitespace-delimited word
starts as the spec claims. -/
theorem c7_counterexample_midword_hyphen :
    evalQ (buildNameSearchQuery ('K' :: 'a' :: 't' :: 'e' :: [])) maryKateDoc = some true ∧
    wsWordPrefMatch ('K' :: 'a' :: 't' :: 'e' :: []) maryKateDoc.first_name = false ∧
    wsWordPrefMatch ('K' :: 'a' :: 't' :: 'e' :: []) maryKateDoc.last_name = false ∧
    wsWordPrefMatch ('K' :: 'a' :: 't' :: 'e' :: []) maryKateDoc.name = false := by
  refine ⟨by decide, by decide, by decide, by decide⟩

/-- C7 (corrected): for every nonempty single token consisting of word
characters, the single-word predicate matches a member record iff the
token, compared case-insensitively as a literal, is a prefix of some
maximal word-character run of the record's first name, last name or
full display name (so `"Mic"` matches `"Michael"` but not
`"Dominic"`, and `"Kate"` does match `"Mary-Kate"`). -/
theorem c7_single_token_word_run_anchoring {w : Str} (hne : w ≠ [])
    (hw : allWordS w = true) (d : MemberDoc) :
    evalQ (buildNameSearchQuery w) d =
      some (wordRunPrefMatch w d.first_name || wordRunPrefMatch w d.last_name ||
        wordRunPrefMatch w d.name) := by
  rw [buildName_single (noWs_of_allWord hw) hne, escRegex_plain_id (plain_of_allWord hw)]
  simp only [buildSingleWordQuery, morL, evalQ, getField]
  rw [regexSearchI_bPat_runs hw hne d.first_name, regexSearchI_bPat_runs hw hne d.last_name,
    regexSearchI_bPat_runs hw hne d.name]
  simp [Bool.or_assoc]

/-- C7 witness: the corrected theorem applied to the token `"Mic"`:
it matches Michael but not Dominic. -/
theorem c7_witness_mic :
    (('M' :: 'i' :: 'c' :: []) ≠ [] ∧ allWordS ('M' :: 'i' :: 'c' :: []) = true) ∧
    evalQ (buildNameSearchQuery ('M' :: 'i' :: 'c' :: [])) michaelDoc = some true ∧
    evalQ (buildNameSearchQuery ('M' :: 'i' :: 'c' :: [])) dominicDoc = some false := by
  refine ⟨⟨by decide, by decide⟩, ?_, ?_⟩
  · rw [c7_single_token_word_run_anchoring (by decide) (by decide) michaelDoc]
    decide
  · rw [c7_single_token_word_run_anchoring (by decide) (by decide) dominicDoc]
    decide

theorem msplitSeq_bol_some (fuel : Nat) (sq : List Regex) (x : Char) (s : Str) :
    msplitSeq (fuel + 1) (Regex.bol :: sq) (some x) s = [] := by
  rw [msplitSeq_cons, msplitOne_bol]
  simp [Option.isNone]

theorem searchFrom_bol_some (f : Nat) (sq : List Regex) :
    ∀ (s : Str) (x : Char), searchFrom (f + 1) [Regex.bol :: sq] (some x) s = false := by
  intro s
  induction s with
  | nil =>
    intro x
    rw [searchFrom_nil, matchHereB_single, msplitSeq_bol_some]
    rfl
  | cons y ys ih =>
    intro x
    rw [searchFrom_step, matchHereB_single, msplitSeq_bol_some, ih y]
    rfl

theorem searchFrom_bol_none (f : Nat) (sq : List Regex) (t : Str) :
    searchFrom (f + 1) [Regex.bol :: sq] none t = !(msplitSeq f sq none t).isEmpty := by
  cases t with
  | nil =>
    rw [searchFrom_nil, matchHereB_single, msplitSeq_cons, msplitOne_bol]
    simp [Option.isNone]
  | cons x xs =>
    rw [searchFrom_step, matchHereB_single, msplitSeq_cons, msplitOne_bol,
      searchFrom_bol_some f sq xs x]
    simp [Option.isNone]

theorem anchoredExactSearch {name t : Str} (hn : noNlS t = true) :
    searchFrom (fuelFor (name.length + 2) t)
      [Regex.bol :: (name.map Regex.lit ++ [Regex.eol])] none t = ciEqList name t := by
  obtain ⟨f, hfe, hfb⟩ : ∃ f, fuelFor (name.length + 2) t = f + 1 ∧ name.length + 1 ≤ f := by
    have h2 : 2 * (4 * (name.length + 2) + 8) ≤ (t.length + 2) * (4 * (name.length + 2) + 8) :=
      Nat.mul_le_mul_right _ (by omega)
    unfold fuelFor
    exact ⟨(t.length + 2) * (4 * (name.length + 2) + 8) - 1, by omega, by omega⟩
  rw [hfe, searchFrom_bol_none, msplitSeq_lits_eol f none t hfb hn]
  simp

theorem anchoredPrefSearch (name t : Str) :
    searchFrom (fuelFor (name.length + 1) t) [Regex.bol :: name.map Regex.lit] none t
      = ciPrefList name t := by
  obtain ⟨f, hfe, hfb⟩ : ∃ f, fuelFor (name.length + 1) t = f + 1 ∧ name.length ≤ f := by
    have h2 : 2 * (4 * (name.length + 1) + 8) ≤ (t.length + 2) * (4 * (name.length + 1) + 8) :=
      Nat.mul_le_mul_right _ (by omega)
    unfold fuelFor
    exact ⟨(t.length + 2) * (4 * (name.length + 1) + 8) - 1, by omega, by omega⟩
  rw [hfe, searchFrom_bol_none, msplitSeq_lits f none t hfb]
  simp

theorem find?_congr_on {α : Type} (l : List α) (p q : α → Bool)
    (h : ∀ x ∈ l, p x = q x) : l.find? p = l.find? q := by
  induction l with
  | nil => rfl
  | cons a l ih =>
    cases hp : p a with
    | true =>
      rw [find?_cons_pos p a l hp,
        find?_cons_pos q a l (by rw [← h a (List.mem_cons_self a l)]; exact hp)]
    | false =>
      rw [find?_cons_neg p a l hp,
        find?_cons_neg q a l (by rw [← h a (List.mem_cons_self a l)]; exact hp),
        ih (fun x hx => h x (List.mem_cons_of_mem a hx))]

/-- C3 counterexample: the matcher compares names by compiling them
into anchored regular expressions without escaping, not by literal
case-insensitive comparison: the queried last name `"Smi.h"` resolves
to the stored member `"Smith"` (the `.` matches `t`), while the
spec's literal reading (exact equality, then literal prefix) finds no
match. -/
theorem c3_counterexample_regex_not_literal :
    (findBioguideByNameState [] (Except.ok [johnSmithDoc])
        ('J' :: 'o' :: 'h' :: 'n' :: []) ('S' :: 'm' :: 'i' :: '.' :: 'h' :: [])
        ('C' :: 'A' :: []) ('s' :: 'e' :: 'n' :: 'a' :: 't' :: 'e' :: [])).1
      = some ('S' :: '0' :: '0' :: '2' :: []) ∧
    (specFindBioguide [] [johnSmithDoc]
        ('J' :: 'o' :: 'h' :: 'n' :: []) ('S' :: 'm' :: 'i' :: '.' :: 'h' :: [])
        ('C' :: 'A' :: []) ('s' :: 'e' :: 'n' :: 'a' :: 't' :: 'e' :: [])).1
      = none := by
  refine ⟨by decide, by decide⟩

/-- C3 (corrected): on a cache miss, for queried names free of regex
metacharacters and stored names free of newlines, the matcher returns
exactly what the spec describes — the id of a stored member matching
first and last name case-insensitively in full plus exact state and
chamber, else the id of one whose last name has the queried last name
as a case-insensitive prefix plus exact state and chamber, else the
absence signal — and a store-level error yields the absence signal
with the cache untouched.  For inputs containing metacharacters the
matcher diverges from this reading (see the counterexample). -/
theorem c3_matcher_refines_spec {cache : MCache} {members : List MemberDoc}
    {firstName lastName state chamber : Str}
    (hfn : plainS firstName = true) (hln : plainS lastName = true)
    (hmem : ∀ d ∈ members, noNlS d.first_name = true ∧ noNlS d.last_name = true)
    (hmiss : cacheLookup cache (matcherCacheKey firstName lastName state chamber) = none) :
    findBioguideByNameState cache (Except.ok members) firstName lastName state chamber
      = specFindBioguide cache members firstName lastName state chamber ∧
    findBioguideByNameState cache (Except.error ()) firstName lastName state chamber
      = (none, cache) := by
  constructor
  · simp only [findBioguideByNameState, specFindBioguide, hmiss,
      parsePattern_anchored_exact hfn, parsePattern_anchored_exact hln,
      parsePattern_anchored_pref hln]
    have hE : members.find?
        (fun d => searchFrom (fuelFor (firstName.length + 2) d.first_name)
            [Regex.bol :: (firstName.map Regex.lit ++ [Regex.eol])] none d.first_name &&
          searchFrom (fuelFor (lastName.length + 2) d.last_name)
            [Regex.bol :: (lastName.map Regex.lit ++ [Regex.eol])] none d.last_name &&
          d.state == upperS state && d.chamber == lowerS chamber)
        = members.find? (specExactMatch firstName lastName state chamber) := by
      refine find?_congr_on members _ _ (fun d hd => ?_)
      unfold specExactMatch
      rw [anchoredExactSearch (hmem d hd).1, anchoredExactSearch (hmem d hd).2]
    have hP : members.find?
        (fun d => searchFrom (fuelFor (lastName.length + 1) d.last_name)
            [Regex.bol :: lastName.map Regex.lit] none d.last_name &&
          d.state == upperS state && d.chamber == lowerS chamber)
        = members.find? (specPrefMatch lastName state chamber) := by
      refine find?_congr_on members _ _ (fun d hd => ?_)
      unfold specPrefMatch
      rw [anchoredPrefSearch lastName d.last_name]
    rw [hE, hP]
  · simp only [findBioguideByNameState, hmiss]

/-- C3 witness: the corrected theorem applied to John Smith of
California queried as senate `"John"`, `"Smith"`. -/
theorem c3_witness_john_smith :
    (plainS ('J' :: 'o' :: 'h' :: 'n' :: []) = true ∧
     plainS ('S' :: 'm' :: 'i' :: 't' :: 'h' :: []) = true) ∧
    findBioguideByNameState [] (Except.ok [johnSmithDoc])
        ('J' :: 'o' :: 'h' :: 'n' :: []) ('S' :: 'm' :: 'i' :: 't' :: 'h' :: [])
        ('C' :: 'A' :: []) ('s' :: 'e' :: 'n' :: 'a' :: 't' :: 'e' :: [])
      = specFindBioguide [] [johnSmithDoc]
        ('J' :: 'o' :: 'h' :: 'n' :: []) ('S' :: 'm' :: 'i' :: 't' :: 'h' :: [])
        ('C' :: 'A' :: []) ('s' :: 'e' :: 'n' :: 'a' :: 't' :: 'e' :: []) := by
  refine ⟨⟨by decide, by decide⟩, ?_⟩
  exact (c3_matcher_refines_spec (by decide) (by decide)
    (by decide) (by decide)).1

/-!
## Top-level-splitter algebra

`tsp` distributes over append through `glueSegs`; this drives the
two-word-pattern symmetry argument. -/

theorem consSegL_ne_nil (c : Char) (l : List Str) : consSegL c l ≠ [] := by
  cases l <;> simp [consSegL]

theorem glue_head2 (s t : Str) (ts : List Str) (sv : List Str) :
    glueSegs (s :: t :: ts) sv = s :: glueSegs (t :: ts) sv := by
  cases sv <;> rfl

theorem glue_single (s : Str) (s1 : Str) (rest : List Str) :
    glueSegs [s] (s1 :: rest) = (s ++ s1) :: rest := rfl

theorem glue_nil_right (su : List Str) : glueSegs su [] = su := by
  cases su <;> rfl

theorem glue_nil_left (sv : List Str) : glueSegs [] sv = sv := rfl

theorem consSegL_glue (c : Char) (su sv : List Str) :
    consSegL c (glueSegs su sv) = glueSegs (consSegL c su) sv := by
  cases su with
  | nil =>
    cases sv with
    | nil => rfl
    | cons s1 rest => rfl
  | cons s ss =>
    cases ss with
    | nil =>
      cases sv with
      | nil => rfl
      | cons s1 rest => simp [consSegL, glue_single]
    | cons t ts =>
      cases sv with
      | nil => rfl
      | cons s1 rest => simp [consSegL, glue_head2]

theorem glue_nil_cons {su : List Str} (h : su ≠ []) (sv : List Str) :
    [] :: glueSegs su sv = glueSegs ([] :: su) sv := by
  cases su with
  | nil => exact absurd rfl h
  | cons s ss => rw [glue_head2]

theorem tsp_ne_nil : ∀ (s : Str) (e k : Bool) (d : Nat) (segs : List Str),
    tsp e k d s = some segs → segs ≠ [] := by
  intro s
  cases s with
  | nil =>
    intro e k d segs h
    unfold tsp at h
    split at h
    · exact absurd h (by simp)
    · injection h with h'
      rw [← h']
      simp
  | cons c cs =>
    intro e k d segs h
    unfold tsp at h
    repeat' split at h
    all_goals
      first
      | exact Option.noConfusion h
      | (obtain ⟨su, hsu, heq⟩ := Option.map_eq_some'.mp h
         rw [← heq]
         cases su <;> simp [consSegL])

theorem tsp_cons_eq (e k : Bool) (d : Nat) (c : Char) (cs : Str) :
    tsp e k d (c :: cs) =
      (if e then (tsp false k d cs).map (consSegL c)
       else if c == '\\' then (tsp true k d cs).map (consSegL c)
       else if k then
         if c == ']' then (tsp false false d cs).map (consSegL c)
         else (tsp false true d cs).map (consSegL c)
       else if c == '[' then (tsp false true d cs).map (consSegL c)
       else if c == '(' then (tsp false false (d + 1) cs).map (consSegL c)
       else if c == ')' then
         match d with
         | 0 => none
         | d' + 1 => (tsp false false d' cs).map (consSegL c)
       else if c == '|' then
         if d == 0 then (tsp false false 0 cs).map (fun segs => [] :: segs)
         else (tsp false false d cs).map (consSegL c)
       else (tsp false k d cs).map (consSegL c)) := rfl

theorem tsp_append (v : Str) : ∀ (u : Str) (e k : Bool) (d : Nat) (su : List Str),
    tsp e k d u = some su →
    tsp e k d (u ++ v) = (tsp false false 0 v).map (glueSegs su) := by
  intro u
  induction u with
  | nil =>
    intro e k d su h
    unfold tsp at h
    split at h
    · exact Option.noConfusion h
    · next hcond =>
      injection h with h'
      simp only [Bool.or_eq_true, bne_iff_ne, ne_eq, not_or, Bool.not_eq_true,
        Decidable.not_not] at hcond
      obtain ⟨⟨he, hk⟩, hd⟩ := hcond
      subst he
      subst hk
      subst hd
      rw [List.nil_append, ← h']
      cases hv : tsp false false 0 v with
      | none => rfl
      | some sv =>
        have hne := tsp_ne_nil v false false 0 sv hv
        cases sv with
        | nil => exact absurd rfl hne
        | cons s1 rest => rfl
  | cons c cs ih =>
    intro e k d su h
    rw [List.cons_append, tsp_cons_eq]
    rw [tsp_cons_eq] at h
    repeat' split at h
    all_goals try simp only [Bool.not_eq_true] at *
    all_goals try simp only [*, Bool.false_eq_true, Bool.true_eq_false, if_true, if_false,
      ite_true, ite_false] at h ⊢
    all_goals
      first
      | exact Option.noConfusion h
      | (obtain ⟨su', hsu', rfl⟩ := Option.map_eq_some'.mp h
         rw [ih _ _ _ su' hsu', Option.map_map]
         exact congrArg (fun f => Option.map f (tsp false false 0 v))
           (funext (fun sv => consSegL_glue c su' sv)))
      | (obtain ⟨su', hsu', rfl⟩ := Option.map_eq_some'.mp h
         rw [ih _ _ _ su' hsu', Option.map_map]
         refine congrArg (fun f => Option.map f (tsp false false 0 v))
           (funext (fun sv => ?_))
         exact glue_nil_cons (tsp_ne_nil cs _ _ _ su' hsu') sv)

theorem tsp00_bar_cons (cs : Str) :
    tsp false false 0 ('|' :: cs) = (tsp false false 0 cs).map (fun segs => [] :: segs) := by
  rw [tsp_cons_eq]
  simp

theorem glue_nilseg_append (L : List Str) : ∀ {su : List Str}, su ≠ [] →
    glueSegs su ([] :: L) = su ++ L := by
  intro su
  induction su with
  | nil => intro h; exact absurd rfl h
  | cons s ss ih =>
    intro _
    cases ss with
    | nil => simp [glue_single]
    | cons t ts =>
      rw [glue_head2, ih (by simp)]
      rfl

theorem consSegL_append (c : Char) {A : List Str} (h : A ≠ []) (L : List Str) :
    consSegL c (A ++ L) = consSegL c A ++ L := by
  cases A with
  | nil => exact absurd rfl h
  | cons a as => rfl

theorem glue_append_right : ∀ (su : List Str) (a1 : Str) (as L : List Str),
    glueSegs su ((a1 :: as) ++ L) = glueSegs su (a1 :: as) ++ L := by
  intro su
  induction su with
  | nil => intro a1 as L; rfl
  | cons s ss ih =>
    intro a1 as L
    cases ss with
    | nil => rfl
    | cons t ts =>
      rw [glue_head2, glue_head2, ih a1 as L]
      rfl

theorem glue_append_right' (su : List Str) {A : List Str} (h : A ≠ []) (L : List Str) :
    glueSegs su (A ++ L) = glueSegs su A ++ L := by
  cases A with
  | nil => exact absurd rfl h
  | cons a1 as => exact glue_append_right su a1 as L

theorem tsp00_twoword {x y : Str} {sx sy : List Str}
    (hx : tsp false false 0 x = some sx) (hy : tsp false false 0 y = some sy) :
    tsp false false 0 (x ++ ('.' :: '*' :: y) ++ ('|' :: y) ++ ('.' :: '*' :: x))
      = some (glueSegs sx (consSegL '.' (consSegL '*' sy))
          ++ glueSegs sy (consSegL '.' (consSegL '*' sx))) := by
  have hne_sx := tsp_ne_nil x false false 0 sx hx
  have hne_sy := tsp_ne_nil y false false 0 sy hy
  have hassoc : x ++ ('.' :: '*' :: y) ++ ('|' :: y) ++ ('.' :: '*' :: x)
      = x ++ ('.' :: '*' :: (y ++ ('|' :: (y ++ ('.' :: '*' :: x))))) := by
    simp
  rw [hassoc]
  rw [tsp_append _ x false false 0 sx hx]
  rw [tsp00_plain_cons (by decide), tsp00_plain_cons (by decide)]
  rw [tsp_append _ y false false 0 sy hy]
  rw [tsp00_bar_cons]
  rw [tsp_append _ y false false 0 sy hy]
  rw [tsp00_plain_cons (by decide), tsp00_plain_cons (by decide), hx]
  simp only [Option.map_some']
  rw [glue_nilseg_append _ hne_sy]
  rw [consSegL_append '*' hne_sy]
  rw [consSegL_append '.' (consSegL_ne_nil '*' sy)]
  rw [glue_append_right' sx (consSegL_ne_nil '.' (consSegL '*' sy))]

theorem mapM_option_append {α β : Type} (f : α → Option β) :
    ∀ (l1 l2 : List α), (l1 ++ l2).mapM f =
      (l1.mapM f).bind (fun a => (l2.mapM f).map (fun b => a ++ b)) := by
  intro l1
  induction l1 with
  | nil =>
    intro l2
    rw [List.nil_append]
    simp only [List.mapM_nil]
    cases h2 : l2.mapM f with
    | none => rfl
    | some bs => simp
  | cons a l1 ih =>
    intro l2
    rw [List.cons_append, List.mapM_cons, List.mapM_cons]
    cases hfa : f a with
    | none => simp
    | some b =>
      rw [ih l2]
      cases h1 : l1.mapM f with
      | none => simp
      | some bs1 =>
        cases h2 : l2.mapM f with
        | none => simp
        | some bs2 => simp

theorem matchHereB_append (fuel : Nat) (xs ys : List (List Regex)) (prev : Option Char)
    (s : Str) : matchHereB fuel (xs ++ ys) prev s
      = (matchHereB fuel xs prev s || matchHereB fuel ys prev s) := by
  simp [matchHereB, List.any_append]

theorem searchFrom_append_comm (fuel : Nat) (xs ys : List (List Regex)) :
    ∀ (s : Str) (prev : Option Char),
      searchFrom fuel (xs ++ ys) prev s = searchFrom fuel (ys ++ xs) prev s := by
  intro s
  induction s with
  | nil =>
    intro prev
    rw [searchFrom_nil, searchFrom_nil, matchHereB_append, matchHereB_append]
    exact Bool.or_comm _ _
  | cons x tail ih =>
    intro prev
    rw [searchFrom_step, searchFrom_step, matchHereB_append, matchHereB_append, ih (some x)]
    cases matchHereB fuel xs prev (x :: tail) <;>
      cases matchHereB fuel ys prev (x :: tail) <;> simp

theorem evalQ_or3_swap (a b c : MQuery) (d : MemberDoc) :
    evalQ (MQuery.orB a (MQuery.orB b c)) d = evalQ (MQuery.orB b (MQuery.orB a c)) d := by
  simp only [evalQ]
  cases evalQ a d <;> cases evalQ b d <;> cases evalQ c d <;>
    simp [Bool.or_left_comm]

theorem evalQ_orB_congr_right (a : MQuery) {b b' : MQuery} (d : MemberDoc)
    (h : evalQ b d = evalQ b' d) :
    evalQ (MQuery.orB a b) d = evalQ (MQuery.orB a b') d := by
  simp only [evalQ, h]

theorem regexSearchI_twoword_comm {ea eb : Str} {sx sy : List Str}
    (hx : tsp false false 0 (bPat ea) = some sx)
    (hy : tsp false false 0 (bPat eb) = some sy) (t : Str) :
    regexSearchI
        (bPat ea ++ ('.' :: '*' :: bPat eb) ++ ('|' :: bPat eb) ++ ('.' :: '*' :: bPat ea)) t
      = regexSearchI
        (bPat eb ++ ('.' :: '*' :: bPat ea) ++ ('|' :: bPat ea) ++ ('.' :: '*' :: bPat eb)) t := by
  have hlen :
      (bPat ea ++ ('.' :: '*' :: bPat eb) ++ ('|' :: bPat eb) ++ ('.' :: '*' :: bPat ea)).length
        = (bPat eb ++ ('.' :: '*' :: bPat ea) ++ ('|' :: bPat ea) ++
            ('.' :: '*' :: bPat eb)).length := by
    simp [bPat]
    omega
  unfold regexSearchI parsePattern
  rw [tsp00_twoword hx hy, tsp00_twoword hy hx, hlen]
  simp only [Option.some_bind]
  rw [mapM_option_append, mapM_option_append]
  cases hp : (glueSegs sx (consSegL '.' (consSegL '*' sy))).mapM
      (parseSegF (2 * (bPat eb ++ ('.' :: '*' :: bPat ea) ++ ('|' :: bPat ea) ++
        ('.' :: '*' :: bPat eb)).length + 2)) with
  | none =>
    cases hq : (glueSegs sy (consSegL '.' (consSegL '*' sx))).mapM
        (parseSegF (2 * (bPat eb ++ ('.' :: '*' :: bPat ea) ++ ('|' :: bPat ea) ++
          ('.' :: '*' :: bPat eb)).length + 2)) with
    | none => simp
    | some rq => simp
  | some rp =>
    cases hq : (glueSegs sy (consSegL '.' (consSegL '*' sx))).mapM
        (parseSegF (2 * (bPat eb ++ ('.' :: '*' :: bPat ea) ++ ('|' :: bPat ea) ++
          ('.' :: '*' :: bPat eb)).length + 2)) with
    | none => simp
    | some rq =>
      simp only [Option.map_some', Option.some_bind]
      exact congrArg some (searchFrom_append_comm _ rp rq t none)

theorem buildTwoWordQuery_symm (ea eb : Str) (d : MemberDoc) :
    evalQ (buildTwoWordQuery ea eb) d = evalQ (buildTwoWordQuery eb ea) d := by
  simp only [buildTwoWordQuery, morL, mandL]
  cases hx : tsp false false 0 (bPat ea) with
  | none =>
    have hr : ∀ t, regexSearchI (bPat ea) t = none := by
      intro t
      unfold regexSearchI parsePattern
      rw [hx]
      rfl
    simp only [evalQ, getField, hr]
    cases regexSearchI (bPat eb) d.first_name <;> rfl
  | some sx =>
    cases hy : tsp false false 0 (bPat eb) with
    | none =>
      have hr : ∀ t, regexSearchI (bPat eb) t = none := by
        intro t
        unfold regexSearchI parsePattern
        rw [hy]
        rfl
      simp only [evalQ, getField, hr]
      cases regexSearchI (bPat ea) d.first_name <;> rfl
    | some sy =>
      have hn : evalQ (MQuery.regexI MField.name
            (bPat ea ++ ('.' :: '*' :: bPat eb) ++ ('|' :: bPat eb) ++
              ('.' :: '*' :: bPat ea))) d
          = evalQ (MQuery.regexI MField.name
            (bPat eb ++ ('.' :: '*' :: bPat ea) ++ ('|' :: bPat ea) ++
              ('.' :: '*' :: bPat eb))) d := by
        simp only [evalQ, getField]
        exact regexSearchI_twoword_comm hx hy d.name
      exact Eq.trans
        (evalQ_orB_congr_right _ d (evalQ_orB_congr_right _ d hn))
        (evalQ_or3_swap _ _ _ d)

/-- C8: the two-word name predicate is symmetric in its tokens: for
all whitespace-free nonempty tokens `a` and `b`, the query built for
`"a b"` evaluates identically to the query built for `"b a"` on every
member document (including agreeing on pattern-compilation failure). -/
theorem c8_two_token_symmetric {a b : Str} (ha : noWsS a = true) (hb : noWsS b = true)
    (hna : a ≠ []) (hnb : b ≠ []) (d : MemberDoc) :
    evalQ (buildNameSearchQuery (a ++ ' ' :: b)) d
      = evalQ (buildNameSearchQuery (b ++ ' ' :: a)) d := by
  rw [buildName_two ha hb hna hnb, buildName_two hb ha hnb hna]
  exact buildTwoWordQuery_symm (escapeRegexSpecialChars a) (escapeRegexSpecialChars b) d

/-- C8 witness: the symmetry theorem applied to `"Mike Lee"` versus
`"Lee Mike"` on a concrete member document; both orders match John
Smith's document identically (both `some false`). -/
theorem c8_witness_mike_lee :
    (noWsS ('M' :: 'i' :: 'k' :: 'e' :: []) = true ∧
     noWsS ('L' :: 'e' :: 'e' :: []) = true) ∧
    evalQ (buildNameSearchQuery
        (('M' :: 'i' :: 'k' :: 'e' :: []) ++ ' ' :: ('L' :: 'e' :: 'e' :: []))) johnSmithDoc
      = evalQ (buildNameSearchQuery
        (('L' :: 'e' :: 'e' :: []) ++ ' ' :: ('M' :: 'i' :: 'k' :: 'e' :: []))) johnSmithDoc := by
  refine ⟨⟨by decide, by decide⟩, ?_⟩
  exact c8_two_token_symmetric (by decide) (by decide) (by decide) (by decide) johnSmithDoc
